import Mathlib

/-!
# Verification of the `ai-instructions` dependency resolver and integrity verifier

Shallow embedding of `internal/resolver/resolver.go` (dependency resolution:
`Resolve`, `ResolveRemoval`, `findCycle`) and of the content-integrity
subsystem of `internal/filemanager` (`HashDir`, `VerifyStack`).

Modelling conventions:
* Go `map` values are modelled as association lists with unique keys
  (Go maps cannot hold duplicate keys); `map[string]bool` sets are modelled
  by the underlying id list with list membership.
* Go strings are compared byte-wise by `sort.Strings`; UTF-8 is
  order-isomorphic to code-point order, so the embedding compares the
  code points of `String.data`.  `String.lt` of core Lean is not used
  because its implementation does not reduce in the kernel.
* Unbounded `for`/recursion is embedded with an explicit fuel argument;
  the fuel actually supplied by `Resolve` is proved sufficient where a
  claim depends on it.  Running out of fuel yields the sentinel error
  `ResolveErr.outOfFuel`, which does not correspond to any Go behaviour
  and is proved unreachable for the supplied fuel.
* Go map iteration order is unspecified; loops of the source that range
  over a map are embedded iterating the corresponding association list.
  The determinism theorem (claim C5) shows the emitted order equals the
  reference min-selection algorithm, which is independent of that order.
-/

deriving instance DecidableEq for Except

/-! ## Byte-wise string ordering (Go `sort.Strings`) -/

/-- Lexicographic comparison of code-point sequences; mirrors Go's
byte-wise `<` on strings (UTF-8 is order-isomorphic to code points). -/
def charsLt : List Char → List Char → Bool
  | [], [] => false
  | [], _ :: _ => true
  | _ :: _, [] => false
  | a :: as, b :: bs =>
    if a.toNat < b.toNat then true
    else if b.toNat < a.toNat then false
    else charsLt as bs

/-- Go string `<`. -/
def strLt (a b : String) : Bool := charsLt a.data b.data

/-- Go string `<=` (total order: `a <= b ↔ ¬ b < a`). -/
def strLe (a b : String) : Bool := !(strLt b a)

/-- The ordering relation used for `List.Sorted` statements. -/
def SLe (a b : String) : Prop := strLe a b = true

/-- Insertion into a sorted list, the helper of `sortStrings`. -/
def insertStr (a : String) : List String → List String
  | [] => [a]
  | b :: l => if strLe a b then a :: b :: l else b :: insertStr a l

/-- `sort.Strings`: Go's sort is unstable, but on a total order over
strings its output is the unique sorted permutation, so any sorting
algorithm is extensionally the same function.  Insertion sort is used
because it reduces in the kernel. -/
def sortStrings : List String → List String
  | [] => []
  | a :: l => insertStr a (sortStrings l)

theorem charsLt_irrefl (l : List Char) : charsLt l l = false := by
  induction l with
  | nil => rfl
  | cons a as ih => simp [charsLt, ih]

theorem charsLt_asymm {l₁ l₂ : List Char} (h : charsLt l₁ l₂ = true) :
    charsLt l₂ l₁ = false := by
  induction l₁ generalizing l₂ with
  | nil =>
    cases l₂ with
    | nil => simp [charsLt]
    | cons b bs => simp [charsLt]
  | cons a as ih =>
    cases l₂ with
    | nil => simp [charsLt] at h
    | cons b bs =>
      simp only [charsLt] at h ⊢
      by_cases hab : a.toNat < b.toNat
      · have : ¬ b.toNat < a.toNat := by omega
        simp [hab, this]
      · by_cases hba : b.toNat < a.toNat
        · simp [hab, hba] at h
        · simp only [hab, hba, if_false, if_neg] at h ⊢
          simp [hab, hba, ih h]

theorem charsLt_trans {l₁ l₂ l₃ : List Char} (h₁ : charsLt l₁ l₂ = true)
    (h₂ : charsLt l₂ l₃ = true) : charsLt l₁ l₃ = true := by
  induction l₁ generalizing l₂ l₃ with
  | nil =>
    cases l₃ with
    | nil =>
      cases l₂ with
      | nil => exact h₁
      | cons b bs => simp [charsLt] at h₂
    | cons c cs => simp [charsLt]
  | cons a as ih =>
    cases l₂ with
    | nil => simp [charsLt] at h₁
    | cons b bs =>
      cases l₃ with
      | nil => simp [charsLt] at h₂
      | cons c cs =>
        simp only [charsLt] at h₁ h₂ ⊢
        by_cases hab : a.toNat < b.toNat <;> by_cases hbc : b.toNat < c.toNat
        · have hac : a.toNat < c.toNat := by omega
          simp [hac]
        · by_cases hcb : c.toNat < b.toNat
          · simp [hab, hbc, hcb] at h₂
          · have hac : a.toNat < c.toNat := by omega
            simp [hac]
        · by_cases hba : b.toNat < a.toNat
          · simp [hab, hba] at h₁
          · have hac : a.toNat < c.toNat := by omega
            simp [hac]
        · by_cases hba : b.toNat < a.toNat
          · simp [hab, hba] at h₁
          · by_cases hcb : c.toNat < b.toNat
            · simp [hbc, hcb] at h₂
            · have h₁' : charsLt as bs = true := by simpa [hab, hba] using h₁
              have h₂' : charsLt bs cs = true := by simpa [hbc, hcb] using h₂
              have hac : ¬ a.toNat < c.toNat := by omega
              have hca : ¬ c.toNat < a.toNat := by omega
              simp [hac, hca, ih h₁' h₂']

theorem char_toNat_inj {a b : Char} (h : a.toNat = b.toNat) : a = b :=
  Char.ext (UInt32.ext h)

theorem charsLt_trichotomy (l₁ l₂ : List Char) :
    charsLt l₁ l₂ = true ∨ charsLt l₂ l₁ = true ∨ l₁ = l₂ := by
  induction l₁ generalizing l₂ with
  | nil =>
    cases l₂ with
    | nil => right; right; rfl
    | cons b bs => left; simp [charsLt]
  | cons a as ih =>
    cases l₂ with
    | nil => right; left; simp [charsLt]
    | cons b bs =>
      by_cases hab : a.toNat < b.toNat
      · left; simp [charsLt, hab]
      · by_cases hba : b.toNat < a.toNat
        · right; left; simp [charsLt, hba, hab]
        · have hEq : a = b := char_toNat_inj (by omega)
          subst hEq
          rcases ih bs with h | h | h
          · left; simp [charsLt, h]
          · right; left; simp [charsLt, h]
          · right; right; simp [h]

theorem strLe_total (a b : String) : SLe a b ∨ SLe b a := by
  unfold SLe strLe strLt
  rcases charsLt_trichotomy a.data b.data with h | h | h
  · left; simp [charsLt_asymm h]
  · right; simp [charsLt_asymm h]
  · left; simp [h, charsLt_irrefl]

theorem strLe_antisymm {a b : String} (h₁ : SLe a b) (h₂ : SLe b a) : a = b := by
  unfold SLe strLe strLt at h₁ h₂
  simp only [Bool.not_eq_true'] at h₁ h₂
  rcases charsLt_trichotomy a.data b.data with h | h | h
  · rw [h] at h₂; cases h₂
  · rw [h] at h₁; cases h₁
  · cases a; cases b; exact congrArg String.mk h

theorem strLe_trans {a b c : String} (h₁ : SLe a b) (h₂ : SLe b c) : SLe a c := by
  unfold SLe strLe strLt at h₁ h₂ ⊢
  simp only [Bool.not_eq_true'] at h₁ h₂ ⊢
  rcases charsLt_trichotomy c.data a.data with h | h | h
  · rcases charsLt_trichotomy c.data b.data with h' | h' | h'
    · rw [h'] at h₂; cases h₂
    · have := charsLt_trans h' h
      rw [this] at h₁; cases h₁
    · rw [h'] at h; rw [h] at h₁; cases h₁
  · exact charsLt_asymm h
  · rw [h, charsLt_irrefl]

instance : IsTrans String SLe := ⟨fun _ _ _ => strLe_trans⟩

instance : IsTotal String SLe := ⟨strLe_total⟩

instance : IsAntisymm String SLe := ⟨fun _ _ => strLe_antisymm⟩

instance : DecidableRel SLe := fun a b => decEq (strLe a b) true

theorem insertStr_perm (a : String) (l : List String) :
    (insertStr a l).Perm (a :: l) := by
  induction l with
  | nil => exact List.Perm.refl _
  | cons b rest ih =>
    unfold insertStr
    by_cases h : strLe a b = true
    · rw [if_pos h]
    · rw [if_neg h]
      exact (ih.cons b).trans (List.Perm.swap a b rest)

theorem sortStrings_perm (l : List String) : (sortStrings l).Perm l := by
  induction l with
  | nil => exact List.Perm.refl _
  | cons a rest ih =>
    unfold sortStrings
    exact (insertStr_perm a (sortStrings rest)).trans (ih.cons a)

theorem insertStr_sorted (a : String) {l : List String}
    (h : List.Sorted SLe l) : List.Sorted SLe (insertStr a l) := by
  induction l with
  | nil => simp [insertStr]
  | cons b rest ih =>
    unfold insertStr
    rw [List.sorted_cons] at h
    by_cases hab : strLe a b = true
    · rw [if_pos hab]
      rw [List.sorted_cons]
      constructor
      · intro x hx
        rcases List.mem_cons.mp hx with hx | hx
        · rw [hx]; exact hab
        · exact strLe_trans hab (h.1 x hx)
      · rw [List.sorted_cons]
        exact h
    · rw [if_neg hab]
      have hba : SLe b a := by
        rcases strLe_total a b with h' | h'
        · exact absurd h' hab
        · exact h'
      rw [List.sorted_cons]
      constructor
      · intro x hx
        rcases List.mem_cons.mp ((insertStr_perm a rest).mem_iff.mp hx) with hx' | hx'
        · rw [hx']; exact hba
        · exact h.1 x hx'
      · exact ih h.2

theorem sortStrings_sorted (l : List String) : List.Sorted SLe (sortStrings l) := by
  induction l with
  | nil => simp [sortStrings]
  | cons a rest ih =>
    unfold sortStrings
    exact insertStr_sorted a ih

theorem sortStrings_mem {l : List String} {x : String} : x ∈ sortStrings l ↔ x ∈ l :=
  (sortStrings_perm l).mem_iff

theorem sortStrings_nodup {l : List String} (h : l.Nodup) : (sortStrings l).Nodup :=
  (sortStrings_perm l).nodup_iff.mpr h

/-- Two sorted lists with the same elements, both duplicate-free, are equal. -/
theorem sortStrings_eq_of_perm {l₁ l₂ : List String} (h : l₁.Perm l₂) :
    sortStrings l₁ = sortStrings l₂ :=
  List.eq_of_perm_of_sorted ((sortStrings_perm l₁).trans (h.trans (sortStrings_perm l₂).symm))
    (sortStrings_sorted l₁) (sortStrings_sorted l₂)

/-! ## Data model of the resolver (`internal/resolver/resolver.go`) -/

/-- `resolver.StackInfo`: a stack's metadata needed for resolution. -/
structure StackInfo where
  id : String
  depends : List String
deriving DecidableEq

/-- The catalog `map[string]StackInfo`, as an association list keyed by
`StackInfo.id` (Go maps have unique keys; `makeStacks` keys every entry
by its own id). -/
abbrev Catalog := List StackInfo

/-- Go `r.stacks[id]` (comma-ok form). -/
def findStack (c : Catalog) (id : String) : Option StackInfo :=
  c.find? (fun s => s.id == id)

/-- Go `r.stacks[id].Depends` where absence yields the zero value
(`nil` dependency slice). -/
def depsOf (c : Catalog) (id : String) : List String :=
  ((findStack c id).map (·.depends)).getD []

/-- `resolver.Resolution`. `Explicit map[string]bool` is modelled by the
explicit id list (membership = the Go set); `DependencyOf` by an
association list with unique keys. -/
structure Resolution where
  order : List String
  explicitIds : List String
  dependencyOf : List (String × String)
deriving DecidableEq

/-- The error taxonomy of the resolver: `CircularDependencyError`,
`MissingStackError`, `MissingDependencyError`, plus the fuel sentinel of
the embedding (proved unreachable for the fuel `Resolve` supplies). -/
inductive ResolveErr where
  | circularDependency (cycle : List String)
  | missingStack (stack : String)
  | missingDependency (stack dependency : String)
  | outOfFuel
deriving DecidableEq

/-- Go `dependencyOf[dep]` on `map[string]string`: missing keys read as
the zero value `""`. -/
def lookupDep (d : List (String × String)) (k : String) : String :=
  (((d.find? (fun p => p.1 == k)).map Prod.snd)).getD ""

/-- Go map assignment `dependencyOf[dep] = current` (update or insert). -/
def setDep (d : List (String × String)) (k v : String) : List (String × String) :=
  match d with
  | [] => [(k, v)]
  | p :: rest => if p.1 == k then (k, v) :: rest else p :: setDep rest k v

/-- Inner loop of the BFS over `info.Depends` (resolver.go lines 98-108):
validates each dependency, records first-discovery attribution, and
appends the dependency to the queue. -/
def scanDeps (c : Catalog) (explicitIds : List String) (current : String) :
    List String → List (String × String) → List String →
    Except ResolveErr (List (String × String) × List String)
  | [], depOf, queue => .ok (depOf, queue)
  | dep :: rest, depOf, queue =>
    match findStack c dep with
    | none => .error (.missingDependency current dep)
    | some _ =>
      let depOf' :=
        if ¬ explicitIds.contains dep ∧ lookupDep depOf dep = "" then
          setDep depOf dep current
        else depOf
      scanDeps c explicitIds current rest depOf' (queue ++ [dep])

/-- BFS collecting the needed set (resolver.go lines 82-109).  The Go
code marks `needed[current]` before the existence lookup; since an error
return discards the partial sets, marking after the lookup is
observationally identical. -/
def bfsAux (c : Catalog) (explicitIds : List String) :
    Nat → List String → List String → List (String × String) →
    Except ResolveErr (List String × List (String × String))
  | _, [], needed, depOf => .ok (needed, depOf)
  | 0, _ :: _, _, _ => .error .outOfFuel
  | fuel + 1, current :: queue, needed, depOf =>
    if needed.contains current then
      bfsAux c explicitIds fuel queue needed depOf
    else
      match findStack c current with
      | none => .error (.missingStack current)
      | some info =>
        match scanDeps c explicitIds current info.depends depOf queue with
        | .error e => .error e
        | .ok (depOf', queue') =>
          bfsAux c explicitIds fuel queue' (needed ++ [current]) depOf'

/-- In-degree of `id` restricted to the needed set, counting multiplicity
(resolver.go lines 113-125). -/
def inDeg0 (c : Catalog) (needed : List String) (id : String) : Int :=
  ((depsOf c id).filter (fun dep => needed.contains dep)).length

/-- Dependents adjacency `adj[node]` with multiplicity: one entry `id`
per occurrence of `node` in `id`'s needed dependencies.  Go builds `adj`
ranging over the `needed` map in unspecified order; the embedding ranges
over the discovery-ordered needed list (the emitted order is proved
independent of this order, claim C5). -/
def adjOf (c : Catalog) (needed : List String) (node : String) : List String :=
  needed.foldr
    (fun id acc =>
      (((depsOf c id).filter (fun dep => dep == node && needed.contains dep)).map
        (fun _ => id)) ++ acc)
    []

/-- `inDegree[dependent]--` on the in-degree map. -/
def decDeg (m : List (String × Int)) (k : String) : List (String × Int) :=
  m.map (fun p => if p.1 == k then (p.1, p.2 - 1) else p)

/-- Read of the in-degree map (zero value for absent keys). -/
def getDeg (m : List (String × Int)) (k : String) : Int :=
  (((m.find? (fun p => p.1 == k)).map Prod.snd)).getD 0

/-- Inner loop over `adj[node]` (resolver.go lines 144-149): decrement
each dependent's in-degree and enqueue it when the degree reaches 0. -/
def processDependents :
    List String → List (String × Int) → List String → List (String × Int) × List String
  | [], m, q2 => (m, q2)
  | d :: rest, m, q2 =>
    let m' := decDeg m d
    let q2' := if getDeg m' d == 0 then q2 ++ [d] else q2
    processDependents rest m' q2'

/-- Kahn's main loop (resolver.go lines 137-150): sort the ready queue,
emit its head, decrement its dependents.  Fuel exhaustion returns the
order built so far (the supplied fuel is proved sufficient). -/
def kahnLoop (c : Catalog) (needed : List String) :
    Nat → List (String × Int) → List String → List String → List String
  | 0, _, _, order => order
  | fuel + 1, m, q2, order =>
    match sortStrings q2 with
    | [] => order
    | node :: rest =>
      let (m', q2') := processDependents (adjOf c needed node) m rest
      kahnLoop c needed fuel m' q2' (order ++ [node])

/-- Total number of dependency edges in the catalog; used for the BFS
fuel bound. -/
def totalDeps (c : Catalog) : Nat := (c.map (·.depends.length)).sum

/-- Fuel supplied to the BFS: an upper bound on the number of BFS steps
(each step either pops an already-needed id or marks a new one and
enqueues at most `totalDeps c` ids over the whole run). -/
def resolveFuel (c : Catalog) (explicitIds : List String) : Nat :=
  explicitIds.length + c.length * (totalDeps c + 1) + 1

/-! ### Cycle reconstruction (`findCycle`, resolver.go lines 209-261) -/

/-- Result of one `dfs` call: a found cycle, a clean return (`nil`), or
the fuel sentinel (proved unreachable for the fuel supplied). -/
inductive DfsRes where
  | cycle (l : List String)
  | clean
  | fuelOut
deriving DecidableEq

/-- Read of the `visited` map (0 = unvisited zero value). -/
def getMark (m : List (String × Nat)) (k : String) : Nat :=
  (((m.find? (fun p => p.1 == k)).map Prod.snd)).getD 0

/-- Write to the `visited` map. -/
def setMark (m : List (String × Nat)) (k : String) (v : Nat) : List (String × Nat) :=
  match m with
  | [] => [(k, v)]
  | p :: rest => if p.1 == k then (k, v) :: rest else p :: setMark rest k v

/-- `findCycle`'s extraction of the path segment from the first
occurrence of `dep` onwards (resolver.go lines 225-232). -/
def cycleFrom (path : List String) (dep : String) : List String :=
  (path.drop (path.indexOf dep)) ++ [dep]

/-- The recursive `dfs` closure of `findCycle` together with its inner
`for _, dep := range info.Depends` loop, as one structurally recursive
function (mutual recursion would not reduce in the kernel).  A
`Sum.inl node` step marks the node in-progress, pushes it on the path,
scans its dependencies (a `Sum.inr deps` step), then pops and marks it
done; the fuel bounds the call depth. -/
def dfsStep (c : Catalog) (needed : List String) :
    Nat → String ⊕ List String → List (String × Nat) → List String →
    DfsRes × List (String × Nat) × List String
  | 0, _, visited, path => (.fuelOut, visited, path)
  | fuel + 1, .inl node, visited, path =>
    match dfsStep c needed fuel (.inr (depsOf c node)) (setMark visited node 1)
        (path ++ [node]) with
    | (.clean, v', p') => (.clean, setMark v' node 2, p'.dropLast)
    | r => r
  | _ + 1, .inr [], visited, path => (.clean, visited, path)
  | fuel + 1, .inr (dep :: rest), visited, path =>
    if needed.contains dep then
      if getMark visited dep == 1 then
        if path.contains dep then (.cycle (cycleFrom path dep), visited, path)
        else dfsStep c needed fuel (.inr rest) visited path
      else if getMark visited dep == 0 then
        match dfsStep c needed fuel (.inl dep) visited path with
        | (.clean, v', p') => dfsStep c needed fuel (.inr rest) v' p'
        | r => r
      else dfsStep c needed fuel (.inr rest) visited path
    else dfsStep c needed fuel (.inr rest) visited path

/-- Fuel supplied to each top-level `dfs` call: bounds the call depth of
`dfsStep` (proved sufficient). -/
def dfsFuel (c : Catalog) (needed : List String) : Nat :=
  (totalDeps c + 1) * needed.length + 1

/-- Top loop of `findCycle` over the lexicographically sorted needed ids
(resolver.go lines 246-259). -/
def findCycleLoop (c : Catalog) (needed : List String) :
    List String → List (String × Nat) → List String
  | [], _ => []
  | id :: rest, visited =>
    if getMark visited id == 0 then
      match dfsStep c needed (dfsFuel c needed) (.inl id) visited [] with
      | (.cycle l, _, _) => l
      | (_, v', _) => findCycleLoop c needed rest v'
    else findCycleLoop c needed rest visited

/-- `findCycle` (resolver.go lines 209-261). -/
def findCycle (c : Catalog) (needed : List String) : List String :=
  findCycleLoop c needed (sortStrings needed) []

/-- `Resolve` (resolver.go lines 64-163). -/
def Resolve (c : Catalog) (explicitIds : List String) : Except ResolveErr Resolution :=
  match explicitIds.find? (fun id => (findStack c id).isNone) with
  | some id => .error (.missingStack id)
  | none =>
    match bfsAux c explicitIds (resolveFuel c explicitIds) explicitIds [] [] with
    | .error e => .error e
    | .ok (needed, depOf) =>
      let m0 := needed.map (fun id => (id, inDeg0 c needed id))
      let q0 := sortStrings ((m0.filter (fun p => p.2 == 0)).map Prod.fst)
      let order := kahnLoop c needed (needed.length + 1) m0 q0 []
      if order.length == needed.length then
        .ok ⟨order, explicitIds, depOf⟩
      else
        .error (.circularDependency (findCycle c needed))

/-- `ResolveRemoval` (resolver.go lines 166-206). -/
def ResolveRemoval (c : Catalog) (currentExplicit removing : List String) : List String :=
  let remaining := currentExplicit.filter (fun id => ¬ removing.contains id)
  match Resolve c remaining with
  | .error _ => []
  | .ok res =>
    match Resolve c currentExplicit with
    | .error _ => []
    | .ok currentRes =>
      sortStrings (currentRes.order.filter
        (fun id => ¬ res.order.contains id ∧ ¬ removing.contains id))

/-! ## Integrity verifier (`internal/filemanager`: `HashDir`, `VerifyStack`)

SHA-256 is modelled as an injective function of the byte stream written
to it, so a digest is identified with that stream (`List Nat` of byte
values); equality/inequality of digests corresponds to
equality/inequality of the streams.  A directory is modelled as the
file set `HashDir`'s walk produces: an association list from relative
path to content bytes.  I/O failures (`HashDir`'s error return,
`HashFile` read errors on existing files) have no counterpart in the
pure model and are not modelled. -/

/-- Byte contents. -/
abbrev Bytes := List Nat

/-- A directory as a mapping from relative file path to raw bytes. -/
abbrev FileSet := List (String × Bytes)

/-- The bytes of a (ASCII) string literal written to the hash. -/
def strBytes (s : String) : Bytes := s.data.map Char.toNat

/-- `os.ReadFile` of a file of the set. -/
def lookupBytes (files : FileSet) (name : String) : Bytes :=
  (((files.find? (fun p => p.1 == name)).map Prod.snd)).getD []

/-- `HashDir` (filemanager hash.go): sort the relative paths, then for
each path write `"file:" + path + "\n"` followed by the file's bytes.
The digest is the accumulated stream. -/
def hashDirStream (files : FileSet) : Bytes :=
  (sortStrings (files.map Prod.fst)).foldl
    (fun h f => h ++ strBytes ("file:" ++ f ++ "\n") ++ lookupBytes files f) []

/-- The directory hash as the SPEC describes it (claim C2): identical to
`hashDirStream` except that the per-file header is `"path:" + path +
"\n"`.  This definition follows the spec's words, for comparison with
the source-derived `hashDirStream`. -/
def hashDirStreamSpec (files : FileSet) : Bytes :=
  ((sortStrings (files.map Prod.fst)).map
    (fun p => strBytes ("path:" ++ p ++ "\n") ++ lookupBytes files p)).flatten

/-- The directory hash as the AMENDED claim describes it: sort the
relative paths lexicographically, then feed the hash, for each path in
sorted order, `"file:" + path + "\n"` followed by the file's bytes. -/
def hashDirStreamAmended (files : FileSet) : Bytes :=
  ((sortStrings (files.map Prod.fst)).map
    (fun p => strBytes ("file:" ++ p ++ "\n") ++ lookupBytes files p)).flatten

/-- `HashFile`/`HashBytes`: the SHA-256 digest of a single file,
modelled injectively as its byte content. -/
def hashFileDigest (data : Bytes) : Bytes := data

/-- `filepath.Join` for the component shapes occurring here: empty
components are dropped and the rest joined with `/` (`Clean`
normalization of `.`/`..` segments is not modelled; no such segment
occurs in the claims). -/
def goJoin (parts : List String) : String :=
  String.intercalate "/" (parts.filter (fun p => !(p == "")))

/-- `filemanager.StackVerifyInfo`. -/
structure StackVerifyInfo where
  hash : Bytes
  files : List String
  fileHashes : List (String × Bytes)
deriving DecidableEq

/-- `filemanager.VerifyResult`. -/
structure VerifyResult where
  stack : String
  ok : Bool
  missing : List String
  tampered : List String
deriving DecidableEq

/-- Lookup in the recorded per-file hash map (comma-ok form). -/
def lookupHash (m : List (String × Bytes)) (k : String) : Option Bytes :=
  (m.find? (fun p => p.1 == k)).map Prod.snd

/-- `VerifyStack` (filemanager verify.go lines 34-93).  `os.Stat`
existence is membership in the directory's file set; `os.ReadDir`
returns entries sorted by filename. -/
def VerifyStack (instructionsDir stackID : String) (dir : FileSet)
    (info : StackVerifyInfo) : VerifyResult :=
  let missing := info.files.filter (fun f => !((dir.map Prod.fst).contains f))
  if missing.isEmpty then
    let dirHash := hashDirStream dir
    if dirHash == info.hash then ⟨stackID, true, [], []⟩
    else if info.fileHashes.length > 0 then
      let tampered₁ := (info.files.filter (fun f =>
          match lookupHash info.fileHashes f with
          | none => false
          | some expected => !(hashFileDigest (lookupBytes dir f) == expected))).map
        (fun f => goJoin [instructionsDir, stackID, f])
      let tampered₂ := ((sortStrings (dir.map Prod.fst)).filter
          (fun n => !(info.files.contains n))).map
        (fun n => goJoin [instructionsDir, stackID, n] ++ " (unexpected)")
      ⟨stackID, false, [], tampered₁ ++ tampered₂⟩
    else ⟨stackID, false, [], [goJoin [instructionsDir, stackID, "(dir hash mismatch)"]]⟩
  else ⟨stackID, false, missing, []⟩

/-! ### Specification-side notions used by the theorems -/

/-- A dependency edge of the catalog: `a` depends on `b`. -/
def EdgeTo (c : Catalog) (a b : String) : Prop :=
  ∃ info, findStack c a = some info ∧ b ∈ info.depends

/-- The spec's needed set: the explicit ids together with the transitive
closure of their dependencies. -/
inductive Reachable (c : Catalog) (roots : List String) : String → Prop
  | root {x} : x ∈ roots → Reachable c roots x
  | step {a d} : Reachable c roots a → EdgeTo c a d → Reachable c roots d

/-- The catalog's key set. -/
def keys (c : Catalog) : List String := c.map (·.id)

/-- The in-degree `inDegree[id]` maintained by Kahn's loop after
`emitted` has been emitted: the number of not-yet-emitted needed
dependencies of `id`, with multiplicity. -/
def unemittedDeg (c : Catalog) (needed emitted : List String) (id : String) : Nat :=
  ((depsOf c id).filter (fun d => needed.contains d && !(emitted.contains d))).length

/-- Ready set of the spec's reference algorithm: needed, not yet
emitted, zero in-degree. -/
def readyIds (c : Catalog) (needed emitted : List String) : List String :=
  needed.filter (fun id => !(emitted.contains id) && unemittedDeg c needed emitted id == 0)

/-- The spec's reference ready-queue algorithm: at each step emit the
lexicographically smallest zero-in-degree not-yet-emitted id of the
needed subgraph; stop when no node is ready. -/
def refRun (c : Catalog) (needed : List String) : Nat → List String → List String
  | 0, emitted => emitted
  | fuel + 1, emitted =>
    match sortStrings (readyIds c needed emitted) with
    | [] => emitted
    | node :: _ => refRun c needed fuel (emitted ++ [node])

/-- Partial topological-order invariant: every needed dependency of the
`i`-th emitted node was emitted earlier. -/
def TopoInv (c : Catalog) (needed order : List String) : Prop :=
  ∀ i (h : i < order.length), ∀ d ∈ depsOf c (order.get ⟨i, h⟩),
    needed.contains d = true → d ∈ order.take i

/-- The loop invariant of Kahn's algorithm relating the in-degree map
`m`, the ready queue `q2` and the emitted prefix `order`. -/
def KInv (c : Catalog) (needed : List String) (m : List (String × Int))
    (q2 order : List String) : Prop :=
  needed.Nodup ∧
  m = needed.map (fun id => (id, (unemittedDeg c needed order id : Int))) ∧
  q2.Nodup ∧
  (∀ x, x ∈ q2 ↔ x ∈ needed ∧ x ∉ order ∧ unemittedDeg c needed order x = 0) ∧
  order.Nodup ∧ (∀ x ∈ order, x ∈ needed) ∧
  (∀ x ∈ order, unemittedDeg c needed order x = 0) ∧
  TopoInv c needed order

/-- Count of unvisited needed ids, the termination measure of the DFS. -/
def unvisCount (needed : List String) (vis : List (String × Nat)) : Nat :=
  (needed.filter (fun id => getMark vis id == 0)).length

/-- A dependency edge of the needed subgraph. -/
def NeedEdge (c : Catalog) (needed : List String) (a b : String) : Prop :=
  EdgeTo c a b ∧ a ∈ needed ∧ b ∈ needed

/-- The in-progress (mark 1) nodes are exactly the recursion path. -/
def Mark1Path (vis : List (String × Nat)) (p : List String) : Prop :=
  ∀ k, getMark vis k = 1 ↔ k ∈ p

/-- Marks only take the values 0, 1, 2. -/
def Marks012 (vis : List (String × Nat)) : Prop := ∀ k, getMark vis k ≤ 2

/-- Every needed dependency of a finished (mark 2) node is finished. -/
def Marked2Closed (c : Catalog) (needed : List String)
    (vis : List (String × Nat)) : Prop :=
  ∀ w, getMark vis w = 2 → ∀ d, NeedEdge c needed w d → getMark vis d = 2

/-- A needed edge both of whose endpoints are finished. -/
def DoneEdge (c : Catalog) (needed : List String) (vis : List (String × Nat))
    (a b : String) : Prop :=
  NeedEdge c needed a b ∧ getMark vis a = 2 ∧ getMark vis b = 2

/-- No cycle of the needed subgraph lies entirely among finished nodes. -/
def MarkSafe (c : Catalog) (needed : List String)
    (vis : List (String × Nat)) : Prop :=
  ∀ v, ¬ Relation.TransGen (DoneEdge c needed vis) v v

/-! Sanity checks of the embedding against the Go test-suite examples. -/

example :
    VerifyStack "" "" [("a.md", strBytes "file a"), ("b.md", strBytes "file b")]
      ⟨hashDirStream [("a.md", strBytes "file a"), ("b.md", strBytes "file b")],
        ["a.md", "b.md"],
        [("a.md", strBytes "file a"), ("b.md", strBytes "file b")]⟩ =
      ⟨"", true, [], []⟩ := by decide

example :
    VerifyStack "" "" [("a.md", strBytes "overwritten"), ("b.md", strBytes "file b")]
      ⟨hashDirStream [("a.md", strBytes "file a"), ("b.md", strBytes "file b")],
        ["a.md", "b.md"],
        [("a.md", strBytes "file a"), ("b.md", strBytes "file b")]⟩ =
      ⟨"", false, [], ["a.md"]⟩ := by decide

example :
    VerifyStack "" "" [("a.md", strBytes "file a")]
      ⟨hashDirStream [("a.md", strBytes "file a"), ("b.md", strBytes "file b")],
        ["a.md", "b.md"],
        [("a.md", strBytes "file a"), ("b.md", strBytes "file b")]⟩ =
      ⟨"", false, ["b.md"], []⟩ := by decide

example :
    hashDirStream [("z.md", strBytes "last"), ("a.md", strBytes "first")] =
      hashDirStream [("a.md", strBytes "first"), ("z.md", strBytes "last")] := by decide

example :
    hashDirStream [("a.md", strBytes "x")] ≠ hashDirStreamSpec [("a.md", strBytes "x")] := by
  decide

example :
    Resolve [⟨"php", []⟩, ⟨"laravel", ["php"]⟩] ["laravel"] =
      .ok ⟨["php", "laravel"], ["laravel"], [("php", "laravel")]⟩ := by decide

example :
    Resolve [⟨"vue", []⟩, ⟨"nuxt", ["vue"]⟩, ⟨"nuxt-ui", ["nuxt"]⟩] ["nuxt-ui"] =
      .ok ⟨["vue", "nuxt", "nuxt-ui"], ["nuxt-ui"], [("nuxt", "nuxt-ui"), ("vue", "nuxt")]⟩ := by
  decide

example :
    ∃ cyc, Resolve [⟨"a", ["b"]⟩, ⟨"b", ["c"]⟩, ⟨"c", ["a"]⟩] ["a"] =
      .error (.circularDependency cyc) :=
  ⟨["a", "b", "c", "a"], by decide⟩

example : Resolve [⟨"php", []⟩] ["laravel"] = .error (.missingStack "laravel") := by decide

example : Resolve [⟨"laravel", ["php"]⟩] ["laravel"] =
    .error (.missingDependency "laravel" "php") := by decide

example :
    ResolveRemoval
      [⟨"vue", []⟩, ⟨"nuxt", ["vue"]⟩, ⟨"nuxt-ui", ["nuxt"]⟩, ⟨"php", []⟩,
        ⟨"laravel", ["php"]⟩]
      ["laravel", "nuxt-ui"] ["nuxt-ui"] = ["nuxt", "vue"] := by decide

example :
    ResolveRemoval [⟨"php", []⟩, ⟨"laravel", ["php"]⟩, ⟨"symfony", ["php"]⟩]
      ["laravel", "symfony"] ["laravel"] = [] := by decide

/-! ## Generic helper lemmas -/

theorem keyInj {α : Type} {l : List (String × α)}
    (hnd : (l.map Prod.fst).Nodup) {p q : String × α}
    (hp : p ∈ l) (hq : q ∈ l) (h : p.1 = q.1) : p = q :=
  List.inj_on_of_nodup_map hnd hp hq h

/-- Lookup into an association list is stable under permutation when the
keys are duplicate-free. -/
theorem lookupBytes_perm {f₁ f₂ : FileSet} (hp : f₁.Perm f₂)
    (hnd : (f₁.map Prod.fst).Nodup) (n : String) :
    lookupBytes f₁ n = lookupBytes f₂ n := by
  unfold lookupBytes
  cases h₁ : f₁.find? (fun p => p.1 == n) with
  | none =>
    have h₂ : f₂.find? (fun p => p.1 == n) = none := by
      rw [List.find?_eq_none] at h₁ ⊢
      intro x hx
      exact h₁ x (hp.mem_iff.mpr hx)
    rw [h₂]
  | some p =>
    have hpmem : p ∈ f₁ := List.mem_of_find?_eq_some h₁
    have hpkey : p.1 = n := by simpa using List.find?_some h₁
    have h₂s : (f₂.find? (fun p => p.1 == n)).isSome := by
      rw [List.find?_isSome]
      exact ⟨p, hp.mem_iff.mp hpmem, by simp [hpkey]⟩
    cases h₂ : f₂.find? (fun p => p.1 == n) with
    | none => rw [h₂] at h₂s; simp at h₂s
    | some q =>
      have hqmem : q ∈ f₁ := hp.mem_iff.mpr (List.mem_of_find?_eq_some h₂)
      have hqkey : q.1 = n := by simpa using List.find?_some h₂
      have : p = q := keyInj hnd hpmem hqmem (hpkey.trans hqkey.symm)
      rw [this]

/-- The `foldl`-with-append loop of `HashDir` flattens to the mapped
per-file streams. -/
theorem hashDir_foldl_eq_flatten (files : FileSet) (names : List String) (init : Bytes) :
    names.foldl
      (fun h f => h ++ strBytes ("file:" ++ f ++ "\n") ++ lookupBytes files f) init =
      init ++ (names.map
        (fun p => strBytes ("file:" ++ p ++ "\n") ++ lookupBytes files p)).flatten := by
  induction names generalizing init with
  | nil => simp
  | cons a as ih =>
    rw [List.foldl_cons, ih]
    simp [List.append_assoc]

theorem hashDirStream_eq_amended (files : FileSet) :
    hashDirStream files = hashDirStreamAmended files := by
  unfold hashDirStream hashDirStreamAmended
  rw [hashDir_foldl_eq_flatten]
  simp

/-! ## Claim C2: the directory content hash -/

/-- Claim C2, counterexample: the claim states the per-file header fed
to the hash is `"path:" + path + "\n"`; the code writes
`"file:" + path + "\n"`.  At the one-file set `{a.md ↦ "x"}` the stream
fed to SHA-256 (hence, the hash being injective on streams, the digest)
differs from the spec-described one. -/
theorem c2_hashdir_path_prefix_counterexample :
    hashDirStream [("a.md", strBytes "x")] ≠ hashDirStreamSpec [("a.md", strBytes "x")] := by
  decide

/-- Claim C2 (amended): the directory content hash is computed by
sorting the relative paths lexicographically and feeding the hash, for
each path in sorted order, `"file:" + path + "\n"` followed by that
file's raw bytes; consequently identical path/content sets yield
identical digests regardless of the order in which the files were
created or enumerated. -/
theorem c2_hashdir_sorted_file_prefix_order_independent :
    (∀ files : FileSet, hashDirStream files = hashDirStreamAmended files) ∧
    (∀ f₁ f₂ : FileSet, f₁.Perm f₂ → (f₁.map Prod.fst).Nodup →
      hashDirStream f₁ = hashDirStream f₂) := by
  constructor
  · exact hashDirStream_eq_amended
  · intro f₁ f₂ hp hnd
    unfold hashDirStream
    have hnames : sortStrings (f₁.map Prod.fst) = sortStrings (f₂.map Prod.fst) :=
      sortStrings_eq_of_perm (hp.map Prod.fst)
    rw [hashDir_foldl_eq_flatten, hashDir_foldl_eq_flatten, ← hnames]
    have : ∀ n, lookupBytes f₁ n = lookupBytes f₂ n := lookupBytes_perm hp hnd
    simp only [this]

/-- Witness for C2's amended theorem: the spec's example set
`{a.md ↦ "first", z.md ↦ "last"}` hashes identically in either
enumeration order. -/
theorem c2_hashdir_witness :
    hashDirStream [("z.md", strBytes "last"), ("a.md", strBytes "first")] =
      hashDirStream [("a.md", strBytes "first"), ("z.md", strBytes "last")] :=
  c2_hashdir_sorted_file_prefix_order_independent.2
    [("z.md", strBytes "last"), ("a.md", strBytes "first")]
    [("a.md", strBytes "first"), ("z.md", strBytes "last")]
    (by decide) (by decide)

/-! ## Claims C3 and C9: `VerifyStack` -/

/-- Claim C3: with no declared file missing, a directory-hash mismatch,
and per-file hashes available, `VerifyStack` reports `ok = false`,
empty `missing`, and `tampered` containing (as the project-relative
joined path) every declared file whose recorded individual hash
mismatches the recomputed one, plus every file present in the directory
but not declared, with an `" (unexpected)"` qualifier.  Reads cannot
fail in the pure model, so the claim's "or whose read fails" disjunct
is vacuous.  In particular, in the spec scenario — declared
`[a.md, b.md]`, only `a.md` overwritten — the result is `ok = false`,
`tampered = [a.md]`, `missing = []`. -/
theorem c3_verify_tampered_localization
    (instr stack : String) (dir : FileSet) (info : StackVerifyInfo)
    (hpresent : ∀ f ∈ info.files, f ∈ dir.map Prod.fst)
    (hhash : hashDirStream dir ≠ info.hash)
    (hfh : info.fileHashes ≠ []) :
    (VerifyStack instr stack dir info).ok = false ∧
    (VerifyStack instr stack dir info).missing = [] ∧
    (∀ f exp, f ∈ info.files → lookupHash info.fileHashes f = some exp →
      hashFileDigest (lookupBytes dir f) ≠ exp →
      goJoin [instr, stack, f] ∈ (VerifyStack instr stack dir info).tampered) ∧
    (∀ n, n ∈ dir.map Prod.fst → n ∉ info.files →
      goJoin [instr, stack, n] ++ " (unexpected)" ∈
        (VerifyStack instr stack dir info).tampered) ∧
    VerifyStack "" "" [("a.md", strBytes "overwritten"), ("b.md", strBytes "file b")]
      ⟨hashDirStream [("a.md", strBytes "file a"), ("b.md", strBytes "file b")],
        ["a.md", "b.md"],
        [("a.md", strBytes "file a"), ("b.md", strBytes "file b")]⟩ =
      ⟨"", false, [], ["a.md"]⟩ := by
  have hmiss : info.files.filter (fun f => !((dir.map Prod.fst).contains f)) = [] := by
    rw [List.filter_eq_nil_iff]
    intro f hf
    simp [hpresent f hf]
  have hne : (hashDirStream dir == info.hash) = false := beq_eq_false_iff_ne.mpr hhash
  have hlen : info.fileHashes.length > 0 := List.length_pos.mpr hfh
  have hVS : VerifyStack instr stack dir info =
      ⟨stack, false, [],
        ((info.files.filter fun f =>
          match lookupHash info.fileHashes f with
          | none => false
          | some expected => !(hashFileDigest (lookupBytes dir f) == expected)).map
            (fun f => goJoin [instr, stack, f])) ++
        ((sortStrings (dir.map Prod.fst)).filter (fun n => !(info.files.contains n))).map
          (fun n => goJoin [instr, stack, n] ++ " (unexpected)")⟩ := by
    unfold VerifyStack
    rw [hmiss]
    simp only [List.isEmpty_nil, if_true, hne, Bool.false_eq_true, if_false]
    rw [if_pos hlen]
  refine ⟨by rw [hVS], by rw [hVS], ?_, ?_, by decide⟩
  · intro f exp hf hlook hneq
    rw [hVS]
    simp only [VerifyResult.tampered, List.mem_append]
    left
    refine List.mem_map.mpr ⟨f, List.mem_filter.mpr ⟨hf, ?_⟩, rfl⟩
    rw [hlook]
    simp [hneq]
  · intro n hn hnotdecl
    rw [hVS]
    simp only [VerifyResult.tampered, List.mem_append]
    right
    refine List.mem_map.mpr ⟨n, List.mem_filter.mpr ⟨sortStrings_mem.mpr hn, ?_⟩, rfl⟩
    simp [hnotdecl]

/-- Witness for C3: the spec scenario itself (with empty directory
qualifiers, under which the joined path of `a.md` is `a.md`). -/
theorem c3_verify_witness :
    goJoin ["", "", "a.md"] ∈
      (VerifyStack "" "" [("a.md", strBytes "overwritten"), ("b.md", strBytes "file b")]
        ⟨hashDirStream [("a.md", strBytes "file a"), ("b.md", strBytes "file b")],
          ["a.md", "b.md"],
          [("a.md", strBytes "file a"), ("b.md", strBytes "file b")]⟩).tampered :=
  (c3_verify_tampered_localization "" ""
      [("a.md", strBytes "overwritten"), ("b.md", strBytes "file b")]
      ⟨hashDirStream [("a.md", strBytes "file a"), ("b.md", strBytes "file b")],
        ["a.md", "b.md"],
        [("a.md", strBytes "file a"), ("b.md", strBytes "file b")]⟩
      (by decide) (by decide) (by decide)).2.2.1
    "a.md" (strBytes "file a") (by decide) (by decide) (by decide)

/-- Claim C9: when at least one declared file is absent, `VerifyStack`
returns immediately with `ok = false`, all absent names collected into
`missing` (in declaration order), empty `tampered`, and performs no
content-hash computation: the result depends only on the directory's
file names, not on any file's bytes.  Scenario: deleting `b.md` yields
`ok = false`, `missing = [b.md]`, `tampered = []`. -/
theorem c9_verify_missing_short_circuit
    (instr stack : String) (dir : FileSet) (info : StackVerifyInfo)
    (habsent : ∃ f ∈ info.files, f ∉ dir.map Prod.fst) :
    VerifyStack instr stack dir info =
      ⟨stack, false, info.files.filter (fun f => !((dir.map Prod.fst).contains f)), []⟩ ∧
    (∀ f, f ∈ (VerifyStack instr stack dir info).missing ↔
      f ∈ info.files ∧ f ∉ dir.map Prod.fst) ∧
    (∀ dir' : FileSet, dir'.map Prod.fst = dir.map Prod.fst →
      VerifyStack instr stack dir' info = VerifyStack instr stack dir info) ∧
    VerifyStack "" "" [("a.md", strBytes "file a")]
      ⟨hashDirStream [("a.md", strBytes "file a"), ("b.md", strBytes "file b")],
        ["a.md", "b.md"],
        [("a.md", strBytes "file a"), ("b.md", strBytes "file b")]⟩ =
      ⟨"", false, ["b.md"], []⟩ := by
  obtain ⟨f₀, hf₀, hf₀abs⟩ := habsent
  have hmain : ∀ d : FileSet, d.map Prod.fst = dir.map Prod.fst →
      VerifyStack instr stack d info =
        ⟨stack, false, info.files.filter (fun f => !((dir.map Prod.fst).contains f)), []⟩ := by
    intro d hd
    have hmem : f₀ ∈ info.files.filter (fun f => !((d.map Prod.fst).contains f)) := by
      refine List.mem_filter.mpr ⟨hf₀, ?_⟩
      rw [hd]
      simp [hf₀abs]
    have hnonnil := List.ne_nil_of_mem hmem
    have hie : (info.files.filter (fun f => !((d.map Prod.fst).contains f))).isEmpty
        = false := by
      cases h : (info.files.filter (fun f => !((d.map Prod.fst).contains f))).isEmpty
      · rfl
      · exact absurd (List.isEmpty_iff.mp h) hnonnil
    unfold VerifyStack
    rw [hd] at hie
    simp only [hd, hie, Bool.false_eq_true, if_false]
  refine ⟨hmain dir rfl, ?_, ?_, by decide⟩
  · intro f
    rw [hmain dir rfl]
    simp only [VerifyResult.missing, List.mem_filter, Bool.not_eq_eq_eq_not, Bool.not_true]
    constructor
    · rintro ⟨h1, h2⟩
      refine ⟨h1, ?_⟩
      simpa using h2
    · rintro ⟨h1, h2⟩
      refine ⟨h1, ?_⟩
      simpa using h2
  · intro d hd
    rw [hmain d hd, hmain dir rfl]

/-- Witness for C9: the deletion scenario. -/
theorem c9_verify_witness :
    VerifyStack "" "" [("a.md", strBytes "file a")]
      ⟨hashDirStream [("a.md", strBytes "file a"), ("b.md", strBytes "file b")],
        ["a.md", "b.md"],
        [("a.md", strBytes "file a"), ("b.md", strBytes "file b")]⟩ =
      ⟨"", false,
        ["a.md", "b.md"].filter
          (fun f => !(([("a.md", strBytes "file a")].map
            (@Prod.fst String Bytes)).contains f)), []⟩ :=
  (c9_verify_missing_short_circuit "" "" [("a.md", strBytes "file a")]
    ⟨hashDirStream [("a.md", strBytes "file a"), ("b.md", strBytes "file b")],
      ["a.md", "b.md"],
      [("a.md", strBytes "file a"), ("b.md", strBytes "file b")]⟩
    ⟨"b.md", by decide, by decide⟩).1

/-! ## Claims C10 and C7: empty explicit list and `ResolveRemoval` -/

/-- `bfsAux` on an empty queue returns immediately, whatever the fuel. -/
theorem bfsAux_nil_queue (c : Catalog) (es : List String) (fuel : Nat)
    (needed : List String) (depOf : List (String × String)) :
    bfsAux c es fuel [] needed depOf = .ok (needed, depOf) := by
  cases fuel <;> rfl

/-- Claim C10: `Resolve` with an empty explicit id list succeeds with an
empty `Order`, empty `Explicit` set and empty `DependencyOf` (the
spec's non-empty-input precondition is not enforced); consequently,
when `removing` covers all of `currentExplicit`, `ResolveRemoval`'s
remaining-set resolve still succeeds and the orphans are computed from
the current resolution rather than swallowed. -/
theorem c10_resolve_empty_explicit :
    (∀ c : Catalog, Resolve c [] = .ok ⟨[], [], []⟩) ∧
    (∀ (c : Catalog) (currentExplicit removing : List String) (res : Resolution),
      (∀ id ∈ currentExplicit, id ∈ removing) →
      Resolve c currentExplicit = .ok res →
      ResolveRemoval c currentExplicit removing =
        sortStrings (res.order.filter (fun id => ¬ removing.contains id))) := by
  have hnil : ∀ c : Catalog, Resolve c [] = .ok ⟨[], [], []⟩ := fun c => rfl
  refine ⟨hnil, ?_⟩
  intro c currentExplicit removing res hcov hres
  have hrem : currentExplicit.filter (fun id => ¬ removing.contains id) = [] := by
    rw [List.filter_eq_nil_iff]
    intro a ha
    simp [hcov a ha]
  simp only [ResolveRemoval]
  rw [hrem, hnil c, hres]
  refine congrArg sortStrings (List.filter_congr ?_)
  intro x _
  simp

/-- Witness for C10's removal clause, on the Go test catalog. -/
theorem c10_removal_witness :
    ResolveRemoval [⟨"php", []⟩, ⟨"laravel", ["php"]⟩] ["laravel"] ["laravel"] =
      sortStrings (["php", "laravel"].filter (fun id => ¬ ["laravel"].contains id)) :=
  c10_resolve_empty_explicit.2 [⟨"php", []⟩, ⟨"laravel", ["php"]⟩] ["laravel"] ["laravel"]
    ⟨["php", "laravel"], ["laravel"], [("php", "laravel")]⟩
    (by decide) (by decide)

/-- Claim C7: when resolving both `currentExplicit` and
`remaining = currentExplicit − removing` succeeds, `ResolveRemoval`
returns, sorted lexicographically, exactly the ids present in the
resolution of `currentExplicit` that are absent from the resolution of
`remaining` and not themselves in `removing`; when either resolve
fails, it returns the empty orphan list instead of propagating the
error. -/
theorem c7_resolve_removal (c : Catalog) (currentExplicit removing : List String) :
    (∀ res cres : Resolution,
      Resolve c (currentExplicit.filter (fun id => ¬ removing.contains id)) = .ok res →
      Resolve c currentExplicit = .ok cres →
      ResolveRemoval c currentExplicit removing =
        sortStrings (cres.order.filter
          (fun id => ¬ res.order.contains id ∧ ¬ removing.contains id)) ∧
      (∀ x, x ∈ ResolveRemoval c currentExplicit removing ↔
        x ∈ cres.order ∧ x ∉ res.order ∧ x ∉ removing) ∧
      List.Sorted SLe (ResolveRemoval c currentExplicit removing)) ∧
    (∀ e, Resolve c (currentExplicit.filter (fun id => ¬ removing.contains id)) = .error e →
      ResolveRemoval c currentExplicit removing = []) ∧
    (∀ e, Resolve c currentExplicit = .error e →
      ResolveRemoval c currentExplicit removing = []) := by
  refine ⟨?_, ?_, ?_⟩
  · intro res cres hrem hcur
    have heq : ResolveRemoval c currentExplicit removing =
        sortStrings (cres.order.filter
          (fun id => ¬ res.order.contains id ∧ ¬ removing.contains id)) := by
      simp only [ResolveRemoval]
      rw [hrem, hcur]
    refine ⟨heq, ?_, ?_⟩
    · intro x
      rw [heq]
      rw [sortStrings_mem, List.mem_filter]
      simp [and_assoc]
    · rw [heq]
      exact sortStrings_sorted _
  · intro e herr
    simp only [ResolveRemoval]
    rw [herr]
  · intro e herr
    simp only [ResolveRemoval]
    cases hrem : Resolve c (currentExplicit.filter (fun id => ¬ removing.contains id)) with
    | error e' => rfl
    | ok res => rw [herr]

/-- Witness for C7 on the Go test catalog:
`resolveRemoval(current = [laravel, nuxt-ui], removing = [nuxt-ui])`
orphans `nuxt` and `vue`. -/
theorem c7_removal_witness :
    ResolveRemoval
        [⟨"vue", []⟩, ⟨"nuxt", ["vue"]⟩, ⟨"nuxt-ui", ["nuxt"]⟩, ⟨"php", []⟩,
          ⟨"laravel", ["php"]⟩]
        ["laravel", "nuxt-ui"] ["nuxt-ui"] =
      sortStrings ((["php", "laravel", "vue", "nuxt", "nuxt-ui"] : List String).filter
        (fun id => ¬ (["php", "laravel"] : List String).contains id ∧
          ¬ (["nuxt-ui"] : List String).contains id)) :=
  ((c7_resolve_removal
      [⟨"vue", []⟩, ⟨"nuxt", ["vue"]⟩, ⟨"nuxt-ui", ["nuxt"]⟩, ⟨"php", []⟩,
        ⟨"laravel", ["php"]⟩]
      ["laravel", "nuxt-ui"] ["nuxt-ui"]).1
    ⟨["php", "laravel"], ["laravel"], [("php", "laravel")]⟩
    ⟨["php", "laravel", "vue", "nuxt", "nuxt-ui"], ["laravel", "nuxt-ui"],
      [("php", "laravel"), ("nuxt", "nuxt-ui"), ("vue", "nuxt")]⟩
    (by decide) (by decide)).1

/-! ## BFS characterization (`Resolve`'s needed-set computation) -/

theorem findStack_isSome_mem_keys {c : Catalog} {n : String}
    (h : (findStack c n).isSome) : n ∈ keys c := by
  unfold findStack at h
  rw [Option.isSome_iff_exists] at h
  obtain ⟨info, hinfo⟩ := h
  have hmem := List.mem_of_find?_eq_some hinfo
  have hid : info.id = n := by simpa using List.find?_some hinfo
  exact hid ▸ List.mem_map.mpr ⟨info, hmem, rfl⟩

theorem findStack_some_deps_le {c : Catalog} {n : String} {info : StackInfo}
    (h : findStack c n = some info) : info.depends.length ≤ totalDeps c := by
  have hmem := List.mem_of_find?_eq_some h
  unfold totalDeps
  exact List.single_le_sum (by simp) _ (List.mem_map.mpr ⟨info, hmem, rfl⟩)

theorem nodup_subset_keys_length {c : Catalog} {l : List String}
    (hnd : l.Nodup) (hsub : ∀ x ∈ l, x ∈ keys c) : l.length ≤ c.length := by
  classical
  calc l.length = l.toFinset.card := (List.toFinset_card_of_nodup hnd).symm
    _ ≤ (keys c).toFinset.card := by
        apply Finset.card_le_card
        intro x hx
        rw [List.mem_toFinset] at hx ⊢
        exact hsub x hx
    _ ≤ (keys c).length := List.toFinset_card_le _
    _ = c.length := by simp [keys]

theorem mem_setDep {d : List (String × String)} {k v : String} {p : String × String}
    (h : p ∈ setDep d k v) : p ∈ d ∨ p = (k, v) := by
  induction d with
  | nil => simp [setDep] at h; right; exact h
  | cons q rest ih =>
    unfold setDep at h
    by_cases hq : q.1 == k
    · rw [if_pos hq] at h
      rcases List.mem_cons.mp h with h | h
      · right; exact h
      · left; exact List.mem_cons_of_mem _ h
    · rw [if_neg hq] at h
      rcases List.mem_cons.mp h with h | h
      · left; exact h ▸ List.mem_cons_self _ _
      · rcases ih h with h | h
        · left; exact List.mem_cons_of_mem _ h
        · right; exact h

theorem setDep_keys_sub {d : List (String × String)} {k v x : String}
    (h : x ∈ (setDep d k v).map Prod.fst) : x = k ∨ x ∈ d.map Prod.fst := by
  obtain ⟨p, hp, hpx⟩ := List.mem_map.mp h
  rcases mem_setDep hp with h' | h'
  · right; exact hpx ▸ List.mem_map.mpr ⟨p, h', rfl⟩
  · left; rw [← hpx, h']

theorem setDep_keys_nodup {d : List (String × String)} {k v : String}
    (hnd : (d.map Prod.fst).Nodup) : ((setDep d k v).map Prod.fst).Nodup := by
  induction d with
  | nil => simp [setDep]
  | cons q rest ih =>
    unfold setDep
    rw [List.map_cons] at hnd
    obtain ⟨hq, hrest⟩ := List.nodup_cons.mp hnd
    by_cases hqk : q.1 == k
    · rw [if_pos hqk]
      rw [List.map_cons]
      refine List.nodup_cons.mpr ⟨?_, hrest⟩
      have : q.1 = k := by simpa using hqk
      rw [← this]
      exact hq
    · rw [if_neg hqk]
      rw [List.map_cons]
      refine List.nodup_cons.mpr ⟨?_, ih hrest⟩
      intro hmem
      rcases setDep_keys_sub hmem with h | h
      · exact hqk (by simp [h])
      · exact hq h

theorem lookupDep_setDep_ne {d : List (String × String)} {k v k' : String}
    (h : k' ≠ k) : lookupDep (setDep d k v) k' = lookupDep d k' := by
  induction d with
  | nil => simp [setDep, lookupDep, Ne.symm h]
  | cons q rest ih =>
    unfold setDep
    by_cases hqk : q.1 == k
    · rw [if_pos hqk]
      have hq : q.1 = k := by simpa using hqk
      unfold lookupDep
      simp only [List.find?_cons]
      have h1 : (k == k') = false := by simp [Ne.symm h]
      have h2 : (q.1 == k') = false := by simp [hq, Ne.symm h]
      rw [h1, h2]
    · rw [if_neg hqk]
      unfold lookupDep
      simp only [List.find?_cons]
      by_cases hq' : q.1 == k'
      · rw [hq']
      · rw [Bool.not_eq_true] at hq'
        rw [hq']
        exact ih

/-- `scanDeps` appends the scanned dependencies to the queue. -/
theorem scanDeps_ok_queue {c : Catalog} {es : List String} {cur : String} :
    ∀ {deps : List String} {depOf queue depOf' queue'},
    scanDeps c es cur deps depOf queue = .ok (depOf', queue') →
    queue' = queue ++ deps := by
  intro deps
  induction deps with
  | nil => intro depOf queue depOf' queue' h; simp [scanDeps] at h; simp [h.2]
  | cons dep rest ih =>
    intro depOf queue depOf' queue' h
    unfold scanDeps at h
    cases hf : findStack c dep with
    | none => rw [hf] at h; cases h
    | some info =>
      rw [hf] at h
      simp only at h
      have := ih h
      rw [this]
      simp

/-- Every dependency scanned by a successful `scanDeps` exists in the
catalog. -/
theorem scanDeps_ok_found {c : Catalog} {es : List String} {cur : String} :
    ∀ {deps : List String} {depOf queue depOf' queue'},
    scanDeps c es cur deps depOf queue = .ok (depOf', queue') →
    ∀ d ∈ deps, (findStack c d).isSome := by
  intro deps
  induction deps with
  | nil => intro _ _ _ _ _ d hd; cases hd
  | cons dep rest ih =>
    intro depOf queue depOf' queue' h d hd
    unfold scanDeps at h
    cases hf : findStack c dep with
    | none => rw [hf] at h; cases h
    | some info =>
      rw [hf] at h
      simp only at h
      rcases List.mem_cons.mp hd with hd | hd
      · rw [hd, hf]; rfl
      · exact ih h d hd

/-- A failing `scanDeps` reports the first missing dependency. -/
theorem scanDeps_err {c : Catalog} {es : List String} {cur : String} :
    ∀ {deps : List String} {depOf queue e},
    scanDeps c es cur deps depOf queue = .error e →
    ∃ d ∈ deps, e = .missingDependency cur d ∧ findStack c d = none := by
  intro deps
  induction deps with
  | nil => intro _ _ _ h; cases h
  | cons dep rest ih =>
    intro depOf queue e h
    unfold scanDeps at h
    cases hf : findStack c dep with
    | none =>
      rw [hf] at h
      cases h
      exact ⟨dep, List.mem_cons_self _ _, rfl, hf⟩
    | some info =>
      rw [hf] at h
      simp only at h
      obtain ⟨d, hd, he, hfd⟩ := ih h
      exact ⟨d, List.mem_cons_of_mem _ hd, he, hfd⟩

/-- New `dependencyOf` entries produced by `scanDeps` record a
non-explicit scanned dependency with `cur` as requester; existing
entries are kept. -/
theorem scanDeps_ok_depOf_mem {c : Catalog} {es : List String} {cur : String} :
    ∀ {deps : List String} {depOf queue depOf' queue'},
    scanDeps c es cur deps depOf queue = .ok (depOf', queue') →
    ∀ p ∈ depOf', p ∈ depOf ∨ (p.1 ∈ deps ∧ p.2 = cur ∧ p.1 ∉ es) := by
  intro deps
  induction deps with
  | nil =>
    intro depOf queue depOf' queue' h p hp
    simp [scanDeps] at h
    left
    rw [h.1]
    exact hp
  | cons dep rest ih =>
    intro depOf queue depOf' queue' h p hp
    unfold scanDeps at h
    cases hf : findStack c dep with
    | none => rw [hf] at h; cases h
    | some info =>
      rw [hf] at h
      simp only at h
      by_cases hcond : ¬ es.contains dep ∧ lookupDep depOf dep = ""
      · rw [if_pos hcond] at h
        rcases ih h p hp with hmem | hnew
        · rcases mem_setDep hmem with hmem | hmem
          · left; exact hmem
          · right
            refine ⟨?_, ?_, ?_⟩
            · rw [hmem]; exact List.mem_cons_self _ _
            · rw [hmem]
            · rw [hmem]
              intro hmm
              exact hcond.1 (by simpa using hmm)
        · right
          exact ⟨List.mem_cons_of_mem _ hnew.1, hnew.2⟩
      · rw [if_neg hcond] at h
        rcases ih h p hp with hmem | hnew
        · left; exact hmem
        · right
          exact ⟨List.mem_cons_of_mem _ hnew.1, hnew.2⟩

/-- `scanDeps` keeps the `dependencyOf` keys duplicate-free. -/
theorem scanDeps_ok_depOf_nodup {c : Catalog} {es : List String} {cur : String} :
    ∀ {deps : List String} {depOf queue depOf' queue'},
    scanDeps c es cur deps depOf queue = .ok (depOf', queue') →
    (depOf.map Prod.fst).Nodup → (depOf'.map Prod.fst).Nodup := by
  intro deps
  induction deps with
  | nil =>
    intro depOf queue depOf' queue' h hnd
    simp [scanDeps] at h
    rw [← h.1]
    exact hnd
  | cons dep rest ih =>
    intro depOf queue depOf' queue' h hnd
    unfold scanDeps at h
    cases hf : findStack c dep with
    | none => rw [hf] at h; cases h
    | some info =>
      rw [hf] at h
      simp only at h
      by_cases hcond : ¬ es.contains dep ∧ lookupDep depOf dep = ""
      · rw [if_pos hcond] at h
        exact ih h (setDep_keys_nodup hnd)
      · rw [if_neg hcond] at h
        exact ih h hnd

/-- First-discovery-wins: `scanDeps` never overwrites an attribution
already present (non-empty) in `dependencyOf`. -/
theorem scanDeps_ok_depOf_stable {c : Catalog} {es : List String} {cur : String} :
    ∀ {deps : List String} {depOf queue depOf' queue'},
    scanDeps c es cur deps depOf queue = .ok (depOf', queue') →
    ∀ k, lookupDep depOf k ≠ "" → lookupDep depOf' k = lookupDep depOf k := by
  intro deps
  induction deps with
  | nil =>
    intro depOf queue depOf' queue' h k _
    simp [scanDeps] at h
    rw [← h.1]
  | cons dep rest ih =>
    intro depOf queue depOf' queue' h k hk
    unfold scanDeps at h
    cases hf : findStack c dep with
    | none => rw [hf] at h; cases h
    | some info =>
      rw [hf] at h
      simp only at h
      by_cases hcond : ¬ es.contains dep ∧ lookupDep depOf dep = ""
      · rw [if_pos hcond] at h
        have hkd : k ≠ dep := by
          intro hkd
          exact hk (hkd ▸ hcond.2)
        have hstable : lookupDep (setDep depOf dep cur) k = lookupDep depOf k :=
          lookupDep_setDep_ne hkd
        rw [← hstable]
        exact ih h k (by rw [hstable]; exact hk)
      · rw [if_neg hcond] at h
        exact ih h k hk

/-- Unfolding equation for `bfsAux` at a non-empty queue. -/
theorem bfsAux_cons (c : Catalog) (es : List String) (fuel : Nat) (cur : String)
    (rest needed : List String) (depOf : List (String × String)) :
    bfsAux c es (fuel + 1) (cur :: rest) needed depOf =
      if needed.contains cur then bfsAux c es fuel rest needed depOf
      else
        match findStack c cur with
        | none => .error (.missingStack cur)
        | some info =>
          match scanDeps c es cur info.depends depOf rest with
          | .error e => .error e
          | .ok (depOf', queue') => bfsAux c es fuel queue' (needed ++ [cur]) depOf' := rfl

/-- Characterization of a successful BFS run: the produced needed list
extends `needed`, absorbs the queue, stays duplicate-free, contains
only catalog members, is closed under dependency edges, and contains
only ids reachable from the roots. -/
theorem bfsAux_ok_props (c : Catalog) (es : List String) :
    ∀ (fuel : Nat) (queue needed : List String) (depOf : List (String × String))
      (n₂ : List String) (d₂ : List (String × String)),
    bfsAux c es fuel queue needed depOf = .ok (n₂, d₂) →
    needed.Nodup →
    (∀ n ∈ needed, (findStack c n).isSome) →
    (∀ n ∈ needed, ∀ d, EdgeTo c n d → d ∈ needed ∨ d ∈ queue) →
    (∀ x ∈ needed, Reachable c es x) →
    (∀ x ∈ queue, Reachable c es x) →
    ((∀ x ∈ needed, x ∈ n₂) ∧ (∀ x ∈ queue, x ∈ n₂) ∧ n₂.Nodup ∧
      (∀ n ∈ n₂, (findStack c n).isSome) ∧
      (∀ n ∈ n₂, ∀ d, EdgeTo c n d → d ∈ n₂) ∧
      (∀ x ∈ n₂, Reachable c es x)) := by
  intro fuel
  induction fuel with
  | zero =>
    intro queue needed depOf n₂ d₂ h hnd hsome hclo hrn hrq
    cases queue with
    | nil =>
      rw [bfsAux_nil_queue] at h
      simp only [Except.ok.injEq, Prod.mk.injEq] at h
      obtain ⟨h1, _⟩ := h
      subst h1
      refine ⟨fun x hx => hx, fun x hx => absurd hx (List.not_mem_nil x), hnd, hsome, ?_, hrn⟩
      intro n hn d hd
      rcases hclo n hn d hd with h | h
      · exact h
      · exact absurd h (List.not_mem_nil d)
    | cons cur rest => cases h
  | succ fuel ih =>
    intro queue needed depOf n₂ d₂ h hnd hsome hclo hrn hrq
    cases queue with
    | nil =>
      rw [bfsAux_nil_queue] at h
      simp only [Except.ok.injEq, Prod.mk.injEq] at h
      obtain ⟨h1, _⟩ := h
      subst h1
      refine ⟨fun x hx => hx, fun x hx => absurd hx (List.not_mem_nil x), hnd, hsome, ?_, hrn⟩
      intro n hn d hd
      rcases hclo n hn d hd with h | h
      · exact h
      · exact absurd h (List.not_mem_nil d)
    | cons cur rest =>
      rw [bfsAux_cons] at h
      by_cases hc : needed.contains cur = true
      · rw [if_pos hc] at h
        have hcur : cur ∈ needed := by simpa using hc
        have hclo' : ∀ n ∈ needed, ∀ d, EdgeTo c n d → d ∈ needed ∨ d ∈ rest := by
          intro n hn d hd
          rcases hclo n hn d hd with h' | h'
          · left; exact h'
          · rcases List.mem_cons.mp h' with h' | h'
            · left; rw [h']; exact hcur
            · right; exact h'
        obtain ⟨p1, p2, p3, p4, p5, p6⟩ :=
          ih rest needed depOf n₂ d₂ h hnd hsome hclo' hrn
            (fun x hx => hrq x (List.mem_cons_of_mem _ hx))
        refine ⟨p1, ?_, p3, p4, p5, p6⟩
        intro x hx
        rcases List.mem_cons.mp hx with hx | hx
        · rw [hx]; exact p1 cur hcur
        · exact p2 x hx
      · rw [if_neg hc] at h
        have hcurnot : cur ∉ needed := fun hmem => hc (by simpa using hmem)
        cases hf : findStack c cur with
        | none => rw [hf] at h; cases h
        | some info =>
          rw [hf] at h
          simp only at h
          cases hs : scanDeps c es cur info.depends depOf rest with
          | error e => rw [hs] at h; cases h
          | ok pr =>
            obtain ⟨depOf', queue'⟩ := pr
            rw [hs] at h
            simp only at h
            have hq' : queue' = rest ++ info.depends := scanDeps_ok_queue hs
            have hrcur : Reachable c es cur := hrq cur (List.mem_cons_self _ _)
            have hnd' : (needed ++ [cur]).Nodup := by
              rw [List.nodup_append]
              refine ⟨hnd, List.nodup_singleton _, ?_⟩
              intro a ha hb
              rw [List.mem_singleton] at hb
              rw [hb] at ha
              exact hcurnot ha
            have hsome' : ∀ n ∈ needed ++ [cur], (findStack c n).isSome := by
              intro n hn
              rcases List.mem_append.mp hn with hn | hn
              · exact hsome n hn
              · rw [List.mem_singleton.mp hn, hf]; rfl
            have hclo' : ∀ n ∈ needed ++ [cur], ∀ d, EdgeTo c n d →
                d ∈ needed ++ [cur] ∨ d ∈ queue' := by
              intro n hn d hd
              rcases List.mem_append.mp hn with hn | hn
              · rcases hclo n hn d hd with h' | h'
                · left; exact List.mem_append.mpr (Or.inl h')
                · rcases List.mem_cons.mp h' with h' | h'
                  · left
                    refine List.mem_append.mpr (Or.inr ?_)
                    rw [h']
                    exact List.mem_singleton.mpr rfl
                  · right; rw [hq']; exact List.mem_append.mpr (Or.inl h')
              · right
                rw [List.mem_singleton.mp hn] at hd
                obtain ⟨info₂, hinfo₂, hdmem⟩ := hd
                rw [hf] at hinfo₂
                injection hinfo₂ with hinfo₂
                rw [← hinfo₂] at hdmem
                rw [hq']
                exact List.mem_append.mpr (Or.inr hdmem)
            have hrn' : ∀ x ∈ needed ++ [cur], Reachable c es x := by
              intro x hx
              rcases List.mem_append.mp hx with hx | hx
              · exact hrn x hx
              · rw [List.mem_singleton.mp hx]; exact hrcur
            have hrq' : ∀ x ∈ queue', Reachable c es x := by
              intro x hx
              rw [hq'] at hx
              rcases List.mem_append.mp hx with hx | hx
              · exact hrq x (List.mem_cons_of_mem _ hx)
              · exact Reachable.step hrcur ⟨info, hf, hx⟩
            obtain ⟨p1, p2, p3, p4, p5, p6⟩ :=
              ih queue' (needed ++ [cur]) depOf' n₂ d₂ h hnd' hsome' hclo' hrn' hrq'
            refine ⟨?_, ?_, p3, p4, p5, p6⟩
            · intro x hx
              exact p1 x (List.mem_append.mpr (Or.inl hx))
            · intro x hx
              rcases List.mem_cons.mp hx with hx | hx
              · rw [hx]
                exact p1 cur (List.mem_append.mpr (Or.inr (List.mem_singleton.mpr rfl)))
              · refine p2 x ?_
                rw [hq']
                exact List.mem_append.mpr (Or.inl hx)

/-- `dependencyOf` bookkeeping of the BFS: keys stay duplicate-free,
every entry either pre-existed or records a non-explicit dependency
with its requesting stack, and existing (non-empty) attributions are
never overwritten (first-discovery-wins). -/
theorem bfsAux_ok_depOf (c : Catalog) (es : List String) :
    ∀ (fuel : Nat) (queue needed : List String) (depOf : List (String × String))
      (n₂ : List String) (d₂ : List (String × String)),
    bfsAux c es fuel queue needed depOf = .ok (n₂, d₂) →
    (((depOf.map Prod.fst).Nodup → (d₂.map Prod.fst).Nodup) ∧
      (∀ p ∈ d₂, p ∈ depOf ∨ (p.1 ∉ es ∧ EdgeTo c p.2 p.1)) ∧
      (∀ k, lookupDep depOf k ≠ "" → lookupDep d₂ k = lookupDep depOf k)) := by
  intro fuel
  induction fuel with
  | zero =>
    intro queue needed depOf n₂ d₂ h
    cases queue with
    | nil =>
      rw [bfsAux_nil_queue] at h
      simp only [Except.ok.injEq, Prod.mk.injEq] at h
      obtain ⟨_, h2⟩ := h
      subst h2
      exact ⟨id, fun p hp => Or.inl hp, fun k _ => rfl⟩
    | cons cur rest => cases h
  | succ fuel ih =>
    intro queue needed depOf n₂ d₂ h
    cases queue with
    | nil =>
      rw [bfsAux_nil_queue] at h
      simp only [Except.ok.injEq, Prod.mk.injEq] at h
      obtain ⟨_, h2⟩ := h
      subst h2
      exact ⟨id, fun p hp => Or.inl hp, fun k _ => rfl⟩
    | cons cur rest =>
      rw [bfsAux_cons] at h
      by_cases hc : needed.contains cur = true
      · rw [if_pos hc] at h
        exact ih rest needed depOf n₂ d₂ h
      · rw [if_neg hc] at h
        cases hf : findStack c cur with
        | none => rw [hf] at h; cases h
        | some info =>
          rw [hf] at h
          simp only at h
          cases hs : scanDeps c es cur info.depends depOf rest with
          | error e => rw [hs] at h; cases h
          | ok pr =>
            obtain ⟨depOf', queue'⟩ := pr
            rw [hs] at h
            simp only at h
            obtain ⟨q1, q2, q3⟩ := ih queue' (needed ++ [cur]) depOf' n₂ d₂ h
            refine ⟨?_, ?_, ?_⟩
            · intro hnd
              exact q1 (scanDeps_ok_depOf_nodup hs hnd)
            · intro p hp
              rcases q2 p hp with hmem | hnew
              · rcases scanDeps_ok_depOf_mem hs p hmem with hmem | hnew
                · left; exact hmem
                · right
                  refine ⟨hnew.2.2, ?_⟩
                  rw [hnew.2.1]
                  exact ⟨info, hf, hnew.1⟩
              · right; exact hnew
            · intro k hk
              have hstep := scanDeps_ok_depOf_stable hs k hk
              rw [← hstep]
              exact q3 k (by rw [hstep]; exact hk)

/-- The fuel `Resolve` supplies never runs out: each BFS step either
consumes a queue entry or marks a new needed id (of which there are at
most `c.length`), enqueueing at most `totalDeps c` ids. -/
theorem bfsAux_no_fuelOut (c : Catalog) (es : List String) :
    ∀ (fuel : Nat) (queue needed : List String) (depOf : List (String × String)),
    needed.Nodup →
    (∀ n ∈ needed, (findStack c n).isSome) →
    queue.length + (c.length - needed.length) * (totalDeps c + 1) ≤ fuel →
    bfsAux c es fuel queue needed depOf ≠ .error .outOfFuel := by
  intro fuel
  induction fuel with
  | zero =>
    intro queue needed depOf hnd hsome hfuel
    cases queue with
    | nil => rw [bfsAux_nil_queue]; intro h; cases h
    | cons cur rest => simp at hfuel
  | succ fuel ih =>
    intro queue needed depOf hnd hsome hfuel
    cases queue with
    | nil => rw [bfsAux_nil_queue]; intro h; cases h
    | cons cur rest =>
      rw [bfsAux_cons]
      by_cases hc : needed.contains cur = true
      · rw [if_pos hc]
        refine ih rest needed depOf hnd hsome ?_
        simp only [List.length_cons] at hfuel
        omega
      · rw [if_neg hc]
        have hcurnot : cur ∉ needed := fun hmem => hc (by simpa using hmem)
        cases hf : findStack c cur with
        | none => intro h; cases h
        | some info =>
          simp only
          cases hs : scanDeps c es cur info.depends depOf rest with
          | error e =>
            simp only
            intro h
            have := scanDeps_err hs
            obtain ⟨d, _, he, _⟩ := this
            injection h with h
            rw [he] at h
            cases h
          | ok pr =>
            obtain ⟨depOf', queue'⟩ := pr
            simp only
            have hq' : queue' = rest ++ info.depends := scanDeps_ok_queue hs
            have hnd' : (needed ++ [cur]).Nodup := by
              rw [List.nodup_append]
              refine ⟨hnd, List.nodup_singleton _, ?_⟩
              intro a ha hb
              rw [List.mem_singleton] at hb
              rw [hb] at ha
              exact hcurnot ha
            have hsome' : ∀ n ∈ needed ++ [cur], (findStack c n).isSome := by
              intro n hn
              rcases List.mem_append.mp hn with hn | hn
              · exact hsome n hn
              · rw [List.mem_singleton.mp hn, hf]; rfl
            refine ih queue' (needed ++ [cur]) depOf' hnd' hsome' ?_
            have hlt : needed.length + 1 ≤ c.length := by
              have := nodup_subset_keys_length hnd'
                (fun x hx => findStack_isSome_mem_keys (hsome' x hx))
              simpa using this
            have hdeps : info.depends.length ≤ totalDeps c := findStack_some_deps_le hf
            have hexp : (c.length - needed.length) * (totalDeps c + 1) =
                (c.length - (needed.length + 1)) * (totalDeps c + 1) + (totalDeps c + 1) := by
              have hsub : c.length - needed.length = (c.length - (needed.length + 1)) + 1 := by
                omega
              rw [hsub, Nat.add_mul, Nat.one_mul]
            rw [hq']
            simp only [List.length_append, List.length_cons, List.length_nil,
              Nat.zero_add] at hfuel ⊢
            omega

/-- A failing BFS whose queue entries all exist in the catalog reports
either the fuel sentinel or a missing dependency of a reachable stack. -/
theorem bfsAux_err (c : Catalog) (es : List String) :
    ∀ (fuel : Nat) (queue needed : List String) (depOf : List (String × String))
      (e : ResolveErr),
    bfsAux c es fuel queue needed depOf = .error e →
    (∀ q ∈ queue, (findStack c q).isSome) →
    (∀ q ∈ queue, Reachable c es q) →
    e = .outOfFuel ∨
      ∃ s d, e = .missingDependency s d ∧ Reachable c es s ∧ EdgeTo c s d ∧
        findStack c d = none := by
  intro fuel
  induction fuel with
  | zero =>
    intro queue needed depOf e h hsome hreach
    cases queue with
    | nil => rw [bfsAux_nil_queue] at h; cases h
    | cons cur rest =>
      injection h with h
      left; rw [← h]
  | succ fuel ih =>
    intro queue needed depOf e h hsome hreach
    cases queue with
    | nil => rw [bfsAux_nil_queue] at h; cases h
    | cons cur rest =>
      rw [bfsAux_cons] at h
      by_cases hc : needed.contains cur = true
      · rw [if_pos hc] at h
        exact ih rest needed depOf e h
          (fun q hq => hsome q (List.mem_cons_of_mem _ hq))
          (fun q hq => hreach q (List.mem_cons_of_mem _ hq))
      · rw [if_neg hc] at h
        cases hf : findStack c cur with
        | none =>
          have := hsome cur (List.mem_cons_self _ _)
          rw [hf] at this
          cases this
        | some info =>
          rw [hf] at h
          simp only at h
          cases hs : scanDeps c es cur info.depends depOf rest with
          | error e' =>
            rw [hs] at h
            injection h with h
            obtain ⟨d, hd, he, hfd⟩ := scanDeps_err hs
            right
            exact ⟨cur, d, by rw [← h, he], hreach cur (List.mem_cons_self _ _),
              ⟨info, hf, hd⟩, hfd⟩
          | ok pr =>
            obtain ⟨depOf', queue'⟩ := pr
            rw [hs] at h
            simp only at h
            have hq' : queue' = rest ++ info.depends := scanDeps_ok_queue hs
            refine ih queue' (needed ++ [cur]) depOf' e h ?_ ?_
            · intro q hq
              rw [hq'] at hq
              rcases List.mem_append.mp hq with hq | hq
              · exact hsome q (List.mem_cons_of_mem _ hq)
              · exact scanDeps_ok_found hs q hq
            · intro q hq
              rw [hq'] at hq
              rcases List.mem_append.mp hq with hq | hq
              · exact hreach q (List.mem_cons_of_mem _ hq)
              · exact Reachable.step (hreach cur (List.mem_cons_self _ _)) ⟨info, hf, hq⟩

/-- Inversion of a successful `Resolve`: the explicit validation found
nothing missing, the BFS succeeded, and the result assembles the Kahn
order (whose length equals the needed-set size), the explicit list and
the BFS attribution map. -/
theorem Resolve_ok_inv {c : Catalog} {es : List String} {r : Resolution}
    (h : Resolve c es = .ok r) :
    es.find? (fun id => (findStack c id).isNone) = none ∧
    ∃ needed depOf,
      bfsAux c es (resolveFuel c es) es [] [] = .ok (needed, depOf) ∧
      r.order = kahnLoop c needed (needed.length + 1)
          (needed.map (fun id => (id, inDeg0 c needed id)))
          (sortStrings (((needed.map (fun id => (id, inDeg0 c needed id))).filter
            (fun p => p.2 == 0)).map Prod.fst)) [] ∧
      r.explicitIds = es ∧ r.dependencyOf = depOf ∧
      r.order.length = needed.length := by
  unfold Resolve at h
  cases hfind : es.find? (fun id => (findStack c id).isNone) with
  | some id => rw [hfind] at h; cases h
  | none =>
    rw [hfind] at h
    simp only at h
    cases hbfs : bfsAux c es (resolveFuel c es) es [] [] with
    | error e => rw [hbfs] at h; cases h
    | ok pr =>
      obtain ⟨needed, depOf⟩ := pr
      rw [hbfs] at h
      simp only at h
      refine ⟨rfl, needed, depOf, rfl, ?_⟩
      by_cases hlen : ((kahnLoop c needed (needed.length + 1)
          (needed.map (fun id => (id, inDeg0 c needed id)))
          (sortStrings (((needed.map (fun id => (id, inDeg0 c needed id))).filter
            (fun p => p.2 == 0)).map Prod.fst)) []).length == needed.length) = true
      · rw [if_pos hlen] at h
        injection h with h
        subst h
        refine ⟨rfl, rfl, rfl, ?_⟩
        simpa using hlen
      · rw [if_neg hlen] at h
        cases h

/-- The needed set computed by a successful top-level BFS is exactly the
reachable set, duplicate-free, closed under edges, and entirely present
in the catalog. -/
theorem bfs_top_props {c : Catalog} {es : List String} {needed : List String}
    {depOf : List (String × String)}
    (h : bfsAux c es (resolveFuel c es) es [] [] = .ok (needed, depOf)) :
    (∀ x, x ∈ needed ↔ Reachable c es x) ∧ needed.Nodup ∧
    (∀ n ∈ needed, (findStack c n).isSome) ∧
    (∀ n ∈ needed, ∀ d, EdgeTo c n d → d ∈ needed) := by
  obtain ⟨p1, p2, p3, p4, p5, p6⟩ :=
    bfsAux_ok_props c es (resolveFuel c es) es [] [] needed depOf h
      List.nodup_nil
      (fun n hn => absurd hn (List.not_mem_nil n))
      (fun n hn => absurd hn (List.not_mem_nil n))
      (fun x hx => absurd hx (List.not_mem_nil x))
      (fun x hx => Reachable.root hx)
  refine ⟨?_, p3, p4, p5⟩
  intro x
  constructor
  · exact p6 x
  · intro hr
    induction hr with
    | root hmem => exact p2 _ hmem
    | step _ hedge ihr => exact p5 _ ihr _ hedge

/-- Claim C8: `Resolve` fails with `MissingStackError` whenever some
requested explicit id is absent from the catalog (the first such id, by
the validation loop), and fails with `MissingDependencyError` whenever
a reachable dependency edge targets an id absent from the catalog; as
an `Except` value the failing call produces no partial `Resolution`. -/
theorem c8_resolve_missing_errors (c : Catalog) (explicitIds : List String) :
    ((∃ id ∈ explicitIds, findStack c id = none) →
      ∃ s, Resolve c explicitIds = .error (.missingStack s) ∧ s ∈ explicitIds ∧
        findStack c s = none) ∧
    ((∀ id ∈ explicitIds, (findStack c id).isSome) →
      (∃ s d, Reachable c explicitIds s ∧ EdgeTo c s d ∧ findStack c d = none) →
      ∃ s d, Resolve c explicitIds = .error (.missingDependency s d) ∧
        Reachable c explicitIds s ∧ EdgeTo c s d ∧ findStack c d = none) := by
  constructor
  · rintro ⟨id, hid, hnone⟩
    have hex : ∃ x ∈ explicitIds, ((findStack c x).isNone) = true :=
      ⟨id, hid, by rw [hnone]; rfl⟩
    have hsome : (explicitIds.find? (fun id => (findStack c id).isNone)).isSome :=
      List.find?_isSome.mpr hex
    rw [Option.isSome_iff_exists] at hsome
    obtain ⟨s, hs⟩ := hsome
    refine ⟨s, ?_, List.mem_of_find?_eq_some hs, ?_⟩
    · unfold Resolve
      rw [hs]
    · have := List.find?_some hs
      rwa [Option.isNone_iff_eq_none] at this
  · rintro hall ⟨s, d, hreach, hedge, hnone⟩
    have hfind : explicitIds.find? (fun id => (findStack c id).isNone) = none := by
      rw [List.find?_eq_none]
      intro x hx
      have := hall x hx
      simp [Option.isNone_iff_eq_none]
      rw [Option.isSome_iff_exists] at this
      obtain ⟨v, hv⟩ := this
      rw [hv]
      intro hcontra
      cases hcontra
    cases hbfs : bfsAux c explicitIds (resolveFuel c explicitIds) explicitIds [] [] with
    | ok pr =>
      obtain ⟨needed, depOf⟩ := pr
      obtain ⟨hiff, _, hsome, hclosed⟩ := bfs_top_props hbfs
      have hdreach : Reachable c explicitIds d := Reachable.step hreach hedge
      have : (findStack c d).isSome := hsome d ((hiff d).mpr hdreach)
      rw [hnone] at this
      cases this
    | error e =>
      have herr := bfsAux_err c explicitIds (resolveFuel c explicitIds) explicitIds [] [] e
        hbfs hall (fun q hq => Reachable.root hq)
      rcases herr with herr | ⟨s', d', he, hr', hE', hn'⟩
      · exfalso
        refine bfsAux_no_fuelOut c explicitIds (resolveFuel c explicitIds) explicitIds [] []
          List.nodup_nil (fun n hn => absurd hn (List.not_mem_nil n)) ?_ ?_
        · unfold resolveFuel
          simp only [List.length_nil, Nat.sub_zero]
          omega
        · rw [hbfs, herr]
      · refine ⟨s', d', ?_, hr', hE', hn'⟩
        unfold Resolve
        rw [hfind]
        simp only
        rw [hbfs, he]

/-- Witness for C8 on the Go test catalogs. -/
theorem c8_missing_witness :
    (∃ s, Resolve [⟨"php", []⟩] ["laravel"] = .error (.missingStack s) ∧
      s ∈ ["laravel"] ∧ findStack [⟨"php", []⟩] s = none) ∧
    (∃ s d, Resolve [⟨"laravel", ["php"]⟩] ["laravel"] =
        .error (.missingDependency s d) ∧
      Reachable [⟨"laravel", ["php"]⟩] ["laravel"] s ∧
      EdgeTo [⟨"laravel", ["php"]⟩] s d ∧ findStack [⟨"laravel", ["php"]⟩] d = none) :=
  ⟨(c8_resolve_missing_errors [⟨"php", []⟩] ["laravel"]).1
      ⟨"laravel", by decide, by decide⟩,
    (c8_resolve_missing_errors [⟨"laravel", ["php"]⟩] ["laravel"]).2
      (by decide)
      ⟨"laravel", "php", Reachable.root (by decide),
        ⟨⟨"laravel", ["php"]⟩, by decide, by decide⟩, by decide⟩⟩

/-- Claim C6: in every successful resolution, `DependencyOf` is defined
only for ids not in the explicit set and maps each such id to exactly
one requesting id (its keys are duplicate-free and each value is a
stack declaring the key among its dependencies).  Attribution is
first-discovery-wins during the BFS seeded in explicit-list order: over
any successful BFS run, an attribution already present is never
overwritten by later requesters.  The diamond catalog
`{a: [d], b: [d], d: []}` resolved as `[a, b]` attributes `d` to `a`,
the first requester in traversal order. -/
theorem c6_dependency_of_first_discovery (c : Catalog) (explicitIds : List String)
    (r : Resolution) (h : Resolve c explicitIds = .ok r) :
    (∀ p ∈ r.dependencyOf, p.1 ∉ r.explicitIds ∧ EdgeTo c p.2 p.1) ∧
    (r.dependencyOf.map Prod.fst).Nodup ∧
    (∀ (fuel : Nat) (queue needed : List String)
      (depOf : List (String × String)) (n₂ : List String)
      (d₂ : List (String × String)),
      bfsAux c explicitIds fuel queue needed depOf = .ok (n₂, d₂) →
      ∀ k, lookupDep depOf k ≠ "" → lookupDep d₂ k = lookupDep depOf k) ∧
    Resolve [⟨"a", ["d"]⟩, ⟨"b", ["d"]⟩, ⟨"d", []⟩] ["a", "b"] =
      .ok ⟨["d", "a", "b"], ["a", "b"], [("d", "a")]⟩ := by
  obtain ⟨hfind, needed, depOf, hbfs, horder, hexp, hdep, hlen⟩ := Resolve_ok_inv h
  obtain ⟨q1, q2, q3⟩ := bfsAux_ok_depOf c explicitIds (resolveFuel c explicitIds)
    explicitIds [] [] needed depOf hbfs
  refine ⟨?_, ?_, ?_, by decide⟩
  · intro p hp
    rw [hdep] at hp
    rcases q2 p hp with hmem | hnew
    · exact absurd hmem (List.not_mem_nil p)
    · rw [hexp]
      exact ⟨hnew.1, hnew.2⟩
  · rw [hdep]
    exact q1 (by simp)
  · intro fuel queue needed' depOf' n₂ d₂ hb k hk
    exact (bfsAux_ok_depOf c explicitIds fuel queue needed' depOf' n₂ d₂ hb).2.2 k hk

/-- Witness for C6 at the diamond catalog: `d` is attributed to `a` and
is not explicit. -/
theorem c6_dependency_witness :
    ("d" : String) ∉ (["a", "b"] : List String) ∧
    EdgeTo [⟨"a", ["d"]⟩, ⟨"b", ["d"]⟩, ⟨"d", []⟩] "a" "d" :=
  (c6_dependency_of_first_discovery [⟨"a", ["d"]⟩, ⟨"b", ["d"]⟩, ⟨"d", []⟩]
    ["a", "b"] ⟨["d", "a", "b"], ["a", "b"], [("d", "a")]⟩ (by decide)).1
    ("d", "a") (by decide)

/-! ## Kahn's loop versus the reference ready-queue algorithm -/

theorem getDeg_map {needed : List String} {g : String → Int} {x : String}
    (hx : x ∈ needed) :
    getDeg (needed.map (fun id => (id, g id))) x = g x := by
  induction needed with
  | nil => cases hx
  | cons a rest ih =>
    rcases List.mem_cons.mp hx with hx | hx
    · unfold getDeg
      rw [hx]
      simp
    · unfold getDeg
      simp only [List.map_cons, List.find?_cons]
      by_cases hax : a == x
      · have : a = x := by simpa using hax
        rw [this]
        simp
      · rw [Bool.not_eq_true] at hax
        rw [hax]
        exact ih hx

theorem decDeg_map (needed : List String) (g : String → Int) (k : String) :
    decDeg (needed.map (fun id => (id, g id))) k =
      needed.map (fun id => (id, if id = k then g id - 1 else g id)) := by
  unfold decDeg
  rw [List.map_map]
  apply List.map_congr_left
  intro a _
  by_cases hak : a = k
  · simp [hak]
  · simp [hak]

theorem mem_adjOf_aux {c : Catalog} {needed : List String} {node x : String} :
    ∀ {l : List String},
    x ∈ l.foldr (fun id acc =>
      (((depsOf c id).filter (fun dep => dep == node && needed.contains dep)).map
        (fun _ => id)) ++ acc) [] → x ∈ l := by
  intro l
  induction l with
  | nil => intro hx; cases hx
  | cons a rest ih =>
    intro hx
    simp only [List.foldr_cons] at hx
    rcases List.mem_append.mp hx with hx | hx
    · obtain ⟨_, _, hxa⟩ := List.mem_map.mp hx
      rw [← hxa]
      exact List.mem_cons_self _ _
    · exact List.mem_cons_of_mem _ (ih hx)

theorem mem_adjOf {c : Catalog} {needed : List String} {node x : String}
    (hx : x ∈ adjOf c needed node) : x ∈ needed :=
  mem_adjOf_aux hx

theorem count_adjOf_aux (c : Catalog) (needed : List String) (node x : String) :
    ∀ l : List String, l.Nodup →
    (l.foldr (fun id acc =>
      (((depsOf c id).filter (fun dep => dep == node && needed.contains dep)).map
        (fun _ => id)) ++ acc) []).count x =
      if x ∈ l then
        ((depsOf c x).filter (fun d => d == node && needed.contains d)).length
      else 0 := by
  intro l
  induction l with
  | nil => intro _; simp
  | cons a rest ih =>
    intro hnd
    rw [List.nodup_cons] at hnd
    simp only [List.foldr_cons, List.count_append]
    have hmapcount : ∀ (y : String) (l' : List String),
        ((l'.map (fun _ => y)).count x) = if x = y then l'.length else 0 := by
      intro y l'
      induction l' with
      | nil => simp
      | cons b bs ihb =>
        simp only [List.map_cons, List.count_cons, ihb]
        by_cases hxy : x = y
        · simp [hxy]
        · simp [hxy, Ne.symm hxy]
    rw [ih hnd.2, hmapcount]
    by_cases hxa : x = a
    · have hxrest : x ∉ rest := by rw [hxa]; exact hnd.1
      rw [if_pos hxa, if_neg hxrest,
        if_pos (show x ∈ a :: rest by rw [hxa]; exact List.mem_cons_self a rest), hxa]
      omega
    · by_cases hxr : x ∈ rest
      · rw [if_neg hxa, if_pos hxr, if_pos (List.mem_cons_of_mem a hxr)]
        omega
      · have hxar : x ∉ a :: rest := by
          intro hmem
          rcases List.mem_cons.mp hmem with h | h
          · exact hxa h
          · exact hxr h
        rw [if_neg hxa, if_neg hxr, if_neg hxar]

theorem count_adjOf (c : Catalog) {needed : List String} (node x : String)
    (hnd : needed.Nodup) :
    (adjOf c needed node).count x =
      if x ∈ needed then
        ((depsOf c x).filter (fun d => d == node && needed.contains d)).length
      else 0 :=
  count_adjOf_aux c needed node x needed hnd


theorem filter_length_split (l : List String) (needed emitted : List String)
    (node : String) (hne : node ∉ emitted) :
    (l.filter (fun d => needed.contains d && !(emitted.contains d))).length =
      (l.filter (fun d => needed.contains d && !((emitted ++ [node]).contains d))).length +
      (l.filter (fun d => d == node && needed.contains d)).length := by
  induction l with
  | nil => simp
  | cons d rest ih =>
    by_cases hdn : d = node
    · subst hdn
      by_cases hN : d ∈ needed
      · rw [List.filter_cons_of_pos (by simp [hN, hne]),
          List.filter_cons_of_neg (by simp),
          List.filter_cons_of_pos (by simp [hN]),
          List.length_cons, List.length_cons]
        omega
      · rw [List.filter_cons_of_neg (by simp [hN]),
          List.filter_cons_of_neg (by simp [hN]),
          List.filter_cons_of_neg (by simp [hN])]
        exact ih
    · by_cases hE : d ∈ emitted
      · rw [List.filter_cons_of_neg (by simp [hE]),
          List.filter_cons_of_neg (by simp [hE]),
          List.filter_cons_of_neg (by simp [hdn])]
        exact ih
      · by_cases hN : d ∈ needed
        · rw [List.filter_cons_of_pos (by simp [hN, hE]),
            List.filter_cons_of_pos (by simp [hN, hE, hdn]),
            List.filter_cons_of_neg (by simp [hdn]),
            List.length_cons, List.length_cons]
          omega
        · rw [List.filter_cons_of_neg (by simp [hN]),
            List.filter_cons_of_neg (by simp [hN]),
            List.filter_cons_of_neg (by simp [hN])]
          exact ih

/-- Emitting `node` lowers each id's in-degree by the number of
occurrences of `node` among its needed dependencies. -/
theorem unemittedDeg_snoc (c : Catalog) (needed emitted : List String)
    (node x : String) (hne : node ∉ emitted) :
    unemittedDeg c needed emitted x =
      unemittedDeg c needed (emitted ++ [node]) x +
      ((depsOf c x).filter (fun d => d == node && needed.contains d)).length :=
  filter_length_split (depsOf c x) needed emitted node hne

/-- Characterization of the decrement loop over `adj[node]`: every
key's degree drops by its multiplicity in the dependent list, and
exactly the keys whose degree crosses from positive to zero are
enqueued, each once. -/
theorem processDependents_spec (needed : List String) :
    ∀ (L : List String) (f : String → Int) (q2 : List String),
    (∀ x ∈ L, x ∈ needed) →
    ∃ extra,
      processDependents L (needed.map (fun id => (id, f id))) q2 =
        (needed.map (fun id => (id, f id - (L.count id : Int))), q2 ++ extra) ∧
      extra.Nodup ∧
      (∀ x, x ∈ extra ↔ x ∈ needed ∧ 1 ≤ f x ∧ f x ≤ (L.count x : Int)) := by
  intro L
  induction L with
  | nil =>
    intro f q2 _
    refine ⟨[], ?_, List.nodup_nil, ?_⟩
    · unfold processDependents
      refine congrArg₂ Prod.mk ?_ (by simp)
      apply List.map_congr_left
      intro a _
      simp
    · intro x
      simp only [List.not_mem_nil, false_iff]
      rintro ⟨_, h1, h2⟩
      simp only [List.count_nil, Nat.cast_zero] at h2
      omega
  | cons d rest ih =>
    intro f q2 hsub
    have hd : d ∈ needed := hsub d (List.mem_cons_self _ _)
    have hstep : processDependents (d :: rest) (needed.map (fun id => (id, f id))) q2 =
        processDependents rest (decDeg (needed.map (fun id => (id, f id))) d)
          (if getDeg (decDeg (needed.map (fun id => (id, f id))) d) d == 0 then
            q2 ++ [d] else q2) := rfl
    rw [decDeg_map] at hstep
    have hgd : getDeg (needed.map (fun id => (id, if id = d then f id - 1 else f id))) d
        = f d - 1 := by
      rw [getDeg_map hd]
      simp
    rw [hgd] at hstep
    have hcountEq : ∀ a ∈ needed,
        ((if a = d then f a - 1 else f a) - ((rest.count a : Nat) : Int)) =
          f a - (((d :: rest).count a : Nat) : Int) := by
      intro a _
      by_cases had : a = d
      · subst had
        rw [if_pos rfl, List.count_cons_self]
        push_cast
        omega
      · rw [if_neg had, List.count_cons_of_ne (by simp [had])]
    by_cases ht : ((f d - 1 : Int) == 0) = true
    · rw [if_pos ht] at hstep
      have hfd : f d = 1 := by
        have : f d - 1 = 0 := by simpa using ht
        omega
      obtain ⟨extra, hpd, hnodup, hchar⟩ :=
        ih (fun id => if id = d then f id - 1 else f id) (q2 ++ [d])
          (fun x hx => hsub x (List.mem_cons_of_mem _ hx))
      refine ⟨d :: extra, ?_, ?_, ?_⟩
      · rw [hstep, hpd]
        refine congrArg₂ Prod.mk ?_ ?_
        · exact List.map_congr_left (fun a ha => by rw [hcountEq a ha])
        · rw [List.append_assoc]
          rfl
      · refine List.nodup_cons.mpr ⟨?_, hnodup⟩
        intro hmem
        have := (hchar d).mp hmem
        rw [if_pos rfl] at this
        omega
      · intro x
        constructor
        · intro hx
          rcases List.mem_cons.mp hx with hx | hx
          · subst hx
            refine ⟨hd, by omega, ?_⟩
            rw [List.count_cons_self]
            push_cast
            omega
          · obtain ⟨hxn, h1, h2⟩ := (hchar x).mp hx
            by_cases hxd : x = d
            · rw [if_pos hxd] at h1
              rw [hxd, hfd] at h1
              omega
            · rw [if_neg hxd] at h1 h2
              refine ⟨hxn, h1, ?_⟩
              rw [List.count_cons_of_ne (by simp [hxd])]
              exact h2
        · rintro ⟨hxn, h1, h2⟩
          by_cases hxd : x = d
          · rw [hxd]; exact List.mem_cons_self _ _
          · refine List.mem_cons_of_mem _ ((hchar x).mpr ⟨hxn, ?_, ?_⟩)
            · rw [if_neg hxd]; exact h1
            · rw [if_neg hxd]
              rw [List.count_cons_of_ne (by simp [hxd])] at h2
              exact h2
    · rw [if_neg ht] at hstep
      have hfd : f d ≠ 1 := by
        intro hcontra
        apply ht
        rw [hcontra]
        rfl
      obtain ⟨extra, hpd, hnodup, hchar⟩ :=
        ih (fun id => if id = d then f id - 1 else f id) q2
          (fun x hx => hsub x (List.mem_cons_of_mem _ hx))
      refine ⟨extra, ?_, hnodup, ?_⟩
      · rw [hstep, hpd]
        refine congrArg₂ Prod.mk ?_ rfl
        exact List.map_congr_left (fun a ha => by rw [hcountEq a ha])
      · intro x
        constructor
        · intro hx
          obtain ⟨hxn, h1, h2⟩ := (hchar x).mp hx
          by_cases hxd : x = d
          · rw [if_pos hxd] at h1 h2
            subst hxd
            refine ⟨hxn, by omega, ?_⟩
            rw [List.count_cons_self]
            push_cast
            omega
          · rw [if_neg hxd] at h1 h2
            refine ⟨hxn, h1, ?_⟩
            rw [List.count_cons_of_ne (by simp [hxd])]
            exact h2
        · rintro ⟨hxn, h1, h2⟩
          by_cases hxd : x = d
          · subst hxd
            rw [List.count_cons_self] at h2
            push_cast at h2
            refine (hchar x).mpr ⟨hxn, ?_, ?_⟩
            · rw [if_pos rfl]
              omega
            · rw [if_pos rfl]
              omega
          · refine (hchar x).mpr ⟨hxn, ?_, ?_⟩
            · rw [if_neg hxd]; exact h1
            · rw [if_neg hxd]
              rw [List.count_cons_of_ne (by simp [hxd])] at h2
              exact h2

/-- One iteration of Kahn's loop preserves the invariant: popping the
head of the sorted ready queue and decrementing its dependents
re-establishes the invariant for the extended emitted prefix. -/
theorem kinv_step {c : Catalog} {needed : List String} {m : List (String × Int)}
    {q2 order : List String} {node : String} {rest : List String}
    {m' : List (String × Int)} {q2' : List String}
    (hinv : KInv c needed m q2 order)
    (hsort : sortStrings q2 = node :: rest)
    (hpdEq : processDependents (adjOf c needed node) m rest = (m', q2')) :
    KInv c needed m' q2' (order ++ [node]) := by
  obtain ⟨hndN, hm, hq2nd, hq2mem, hordnd, hordsub, horddeg, htopo⟩ := hinv
  have hnodeq2 : node ∈ q2 := by
    rw [← @sortStrings_mem q2 _, hsort]
    exact List.mem_cons_self _ _
  obtain ⟨hnodeN, hnodeOrd, hnodeDeg⟩ := (hq2mem node).mp hnodeq2
  have hsortnd : (node :: rest).Nodup := hsort ▸ sortStrings_nodup hq2nd
  have hnodrest : node ∉ rest := (List.nodup_cons.mp hsortnd).1
  have hrestnd : rest.Nodup := (List.nodup_cons.mp hsortnd).2
  have hrest_iff : ∀ x, x ∈ rest ↔ x ∈ q2 ∧ x ≠ node := by
    intro x
    constructor
    · intro hx
      refine ⟨?_, ?_⟩
      · rw [← @sortStrings_mem q2 _, hsort]
        exact List.mem_cons_of_mem _ hx
      · intro hxn
        rw [hxn] at hx
        exact hnodrest hx
    · rintro ⟨hxq, hxn⟩
      have : x ∈ node :: rest := by
        rw [← hsort]
        exact sortStrings_mem.mpr hxq
      rcases List.mem_cons.mp this with h | h
      · exact absurd h hxn
      · exact h
  rw [hm] at hpdEq
  obtain ⟨extra, hpd, hexnd, hexchar⟩ :=
    processDependents_spec needed (adjOf c needed node)
      (fun id => (unemittedDeg c needed order id : Int)) rest
      (fun x hx => mem_adjOf hx)
  rw [hpd] at hpdEq
  simp only [Prod.mk.injEq] at hpdEq
  obtain ⟨hm', hq2'⟩ := hpdEq
  have hsnoc : ∀ x, unemittedDeg c needed order x =
      unemittedDeg c needed (order ++ [node]) x +
        ((depsOf c x).filter (fun d => d == node && needed.contains d)).length :=
    fun x => unemittedDeg_snoc c needed order node x hnodeOrd
  have hcount : ∀ x ∈ needed, (adjOf c needed node).count x =
      ((depsOf c x).filter (fun d => d == node && needed.contains d)).length := by
    intro x hx
    rw [count_adjOf c node x hndN, if_pos hx]
  have hdegEq : ∀ x ∈ needed,
      ((unemittedDeg c needed order x : Int) -
        ((adjOf c needed node).count x : Int)) =
      (unemittedDeg c needed (order ++ [node]) x : Int) := by
    intro x hx
    rw [hcount x hx]
    have := hsnoc x
    push_cast [this]
    omega
  have hdegnode : unemittedDeg c needed (order ++ [node]) node = 0 := by
    have := hsnoc node
    omega
  unfold KInv
  refine ⟨hndN, ?_, ?_, ?_, ?_, ?_, ?_, ?_⟩
  · rw [← hm']
    exact List.map_congr_left (fun a ha => by rw [hdegEq a ha])
  · rw [← hq2']
    rw [List.nodup_append]
    refine ⟨hrestnd, hexnd, ?_⟩
    intro x hxr hxe
    obtain ⟨hxq, _⟩ := (hrest_iff x).mp hxr
    obtain ⟨_, _, hdeg0⟩ := (hq2mem x).mp hxq
    obtain ⟨_, h1, _⟩ := (hexchar x).mp hxe
    rw [hdeg0] at h1
    simp at h1
  · intro x
    rw [← hq2', List.mem_append]
    constructor
    · intro hx
      rcases hx with hx | hx
      · obtain ⟨hxq, hxn⟩ := (hrest_iff x).mp hx
        obtain ⟨hxN, hxo, hdeg0⟩ := (hq2mem x).mp hxq
        refine ⟨hxN, ?_, ?_⟩
        · intro hmem
          rcases List.mem_append.mp hmem with h | h
          · exact hxo h
          · exact hxn (List.mem_singleton.mp h)
        · have := hsnoc x
          omega
      · obtain ⟨hxN, h1, h2⟩ := (hexchar x).mp hx
        rw [hcount x hxN] at h2
        have hsx := hsnoc x
        have hxo : x ∉ order := by
          intro hmem
          have := horddeg x hmem
          rw [this] at h1
          simp at h1
        have hxn : x ≠ node := by
          intro hxn
          rw [hxn, hnodeDeg] at h1
          simp at h1
        refine ⟨hxN, ?_, ?_⟩
        · intro hmem
          rcases List.mem_append.mp hmem with h | h
          · exact hxo h
          · exact hxn (List.mem_singleton.mp h)
        · omega
    · rintro ⟨hxN, hxo', hdn⟩
      have hxo : x ∉ order := fun h => hxo' (List.mem_append.mpr (Or.inl h))
      have hxn : x ≠ node := fun h =>
        hxo' (List.mem_append.mpr (Or.inr (List.mem_singleton.mpr h)))
      have hsx := hsnoc x
      by_cases hdeg0 : unemittedDeg c needed order x = 0
      · left
        rw [hrest_iff x]
        exact ⟨(hq2mem x).mpr ⟨hxN, hxo, hdeg0⟩, hxn⟩
      · right
        rw [hexchar x]
        refine ⟨hxN, by omega, ?_⟩
        rw [hcount x hxN]
        omega
  · rw [List.nodup_append]
    refine ⟨hordnd, List.nodup_singleton _, ?_⟩
    intro a ha hb
    rw [List.mem_singleton] at hb
    rw [hb] at ha
    exact hnodeOrd ha
  · intro x hx
    rcases List.mem_append.mp hx with hx | hx
    · exact hordsub x hx
    · rw [List.mem_singleton.mp hx]
      exact hnodeN
  · intro x hx
    rcases List.mem_append.mp hx with hx | hx
    · have := horddeg x hx
      have hsx := hsnoc x
      omega
    · rw [List.mem_singleton.mp hx]
      exact hdegnode
  · intro i h d hd hdN
    rw [List.length_append, List.length_singleton] at h
    by_cases hi : i < order.length
    · have hget : (order ++ [node]).get ⟨i, by rw [List.length_append]; omega⟩ =
          order.get ⟨i, hi⟩ := List.get_append i hi
      rw [List.take_append_eq_append_take]
      have : i - order.length = 0 := by omega
      rw [this, List.take_zero, List.append_nil]
      refine htopo i hi d ?_ hdN
      rw [← hget]
      exact hd
    · have hieq : i = order.length := by omega
      have hget : (order ++ [node]).get
          ⟨i, by rw [List.length_append, List.length_singleton]; omega⟩ = node :=
        List.get_of_append rfl hieq.symm
      rw [hget] at hd
      rw [List.take_append_eq_append_take]
      have h0 : i - order.length = 0 := by omega
      rw [h0, List.take_zero, List.append_nil, hieq, List.take_length]
      have hz := hnodeDeg
      unfold unemittedDeg at hz
      rw [List.length_eq_zero] at hz
      have : ¬ (needed.contains d && !(order.contains d)) = true := by
        intro hcontra
        have hmem : d ∈ (depsOf c node).filter
            (fun d => needed.contains d && !(order.contains d)) :=
          List.mem_filter.mpr ⟨hd, hcontra⟩
        rw [hz] at hmem
        cases hmem
      simp only [Bool.and_eq_true, Bool.not_eq_true', not_and] at this
      have := this hdN
      simpa using this

theorem kahnLoop_succ_nil (c : Catalog) (needed : List String) (fuel : Nat)
    (m : List (String × Int)) (q2 order : List String)
    (h : sortStrings q2 = []) :
    kahnLoop c needed (fuel + 1) m q2 order = order := by
  unfold kahnLoop
  rw [h]

theorem kahnLoop_succ_cons (c : Catalog) (needed : List String) (fuel : Nat)
    (m : List (String × Int)) (q2 order : List String) (node : String)
    (rest : List String) (m' : List (String × Int)) (q2' : List String)
    (h : sortStrings q2 = node :: rest)
    (hpd : processDependents (adjOf c needed node) m rest = (m', q2')) :
    kahnLoop c needed (fuel + 1) m q2 order =
      kahnLoop c needed fuel m' q2' (order ++ [node]) := by
  have hdef : kahnLoop c needed (fuel + 1) m q2 order =
      (match sortStrings q2 with
       | [] => order
       | node :: rest =>
         match processDependents (adjOf c needed node) m rest with
         | (a, b) => kahnLoop c needed fuel a b (order ++ [node])) := rfl
  rw [hdef, h]
  show (match processDependents (adjOf c needed node) m rest with
       | (a, b) => kahnLoop c needed fuel a b (order ++ [node])) =
      kahnLoop c needed fuel m' q2' (order ++ [node])
  rw [hpd]

theorem refRun_succ_nil (c : Catalog) (needed : List String) (fuel : Nat)
    (emitted : List String) (h : sortStrings (readyIds c needed emitted) = []) :
    refRun c needed (fuel + 1) emitted = emitted := by
  unfold refRun
  rw [h]

theorem refRun_succ_cons (c : Catalog) (needed : List String) (fuel : Nat)
    (emitted : List String) (node : String) (rest : List String)
    (h : sortStrings (readyIds c needed emitted) = node :: rest) :
    refRun c needed (fuel + 1) emitted = refRun c needed fuel (emitted ++ [node]) := by
  have hdef : refRun c needed (fuel + 1) emitted =
      (match sortStrings (readyIds c needed emitted) with
       | [] => emitted
       | node :: _ => refRun c needed fuel (emitted ++ [node])) := rfl
  rw [hdef, h]

/-- Under the invariant, the ready queue equals (after sorting) the
reference ready set. -/
theorem kinv_sort_eq {c : Catalog} {needed : List String}
    {m : List (String × Int)} {q2 order : List String}
    (hinv : KInv c needed m q2 order) :
    sortStrings q2 = sortStrings (readyIds c needed order) := by
  obtain ⟨hndN, _, hq2nd, hq2mem, _, _, _, _⟩ := hinv
  apply sortStrings_eq_of_perm
  have hrnd : (readyIds c needed order).Nodup := by
    unfold readyIds
    exact hndN.filter _
  rw [List.perm_ext_iff_of_nodup hq2nd hrnd]
  intro a
  rw [hq2mem a]
  unfold readyIds
  rw [List.mem_filter]
  constructor
  · rintro ⟨h1, h2, h3⟩
    exact ⟨h1, by simp [h2, h3]⟩
  · rintro ⟨h1, h2⟩
    simp only [Bool.and_eq_true, Bool.not_eq_true', beq_iff_eq] at h2
    refine ⟨h1, ?_, h2.2⟩
    intro hmem
    have hc : order.contains a = true := by simp [hmem]
    rw [h2.1] at hc
    cases hc

/-- Kahn's loop computes the same emitted order as the reference
min-selection algorithm, from any state satisfying the invariant. -/
theorem kahnLoop_eq_refRun (c : Catalog) (needed : List String) :
    ∀ (fuel : Nat) (m : List (String × Int)) (q2 order : List String),
    KInv c needed m q2 order →
    kahnLoop c needed fuel m q2 order = refRun c needed fuel order := by
  intro fuel
  induction fuel with
  | zero => intro m q2 order _; rfl
  | succ fuel ih =>
    intro m q2 order hinv
    have hsort := kinv_sort_eq hinv
    cases hready : sortStrings (readyIds c needed order) with
    | nil =>
      rw [hready] at hsort
      rw [kahnLoop_succ_nil c needed fuel m q2 order hsort,
        refRun_succ_nil c needed fuel order hready]
    | cons node rest =>
      rw [hready] at hsort
      cases hpd : processDependents (adjOf c needed node) m rest with
      | mk m' q2' =>
        rw [kahnLoop_succ_cons c needed fuel m q2 order node rest m' q2' hsort hpd,
          refRun_succ_cons c needed fuel order node rest hready]
        exact ih m' q2' (order ++ [node]) (kinv_step hinv hsort hpd)

/-- The invariant holds at exit: the order returned by Kahn's loop is a
state of the invariant (so it is duplicate-free, contained in the
needed set, and topologically consistent). -/
theorem kahnLoop_props (c : Catalog) (needed : List String) :
    ∀ (fuel : Nat) (m : List (String × Int)) (q2 order : List String),
    KInv c needed m q2 order →
    ∃ m₂ q₂, KInv c needed m₂ q₂ (kahnLoop c needed fuel m q2 order) := by
  intro fuel
  induction fuel with
  | zero => intro m q2 order hinv; exact ⟨m, q2, hinv⟩
  | succ fuel ih =>
    intro m q2 order hinv
    cases hsort : sortStrings q2 with
    | nil =>
      rw [kahnLoop_succ_nil c needed fuel m q2 order hsort]
      exact ⟨m, q2, hinv⟩
    | cons node rest =>
      cases hpd : processDependents (adjOf c needed node) m rest with
      | mk m' q2' =>
        rw [kahnLoop_succ_cons c needed fuel m q2 order node rest m' q2' hsort hpd]
        exact ih m' q2' (order ++ [node]) (kinv_step hinv hsort hpd)

/-- The invariant holds at `Resolve`'s entry into Kahn's loop. -/
theorem kinv_init (c : Catalog) {needed : List String} (hndN : needed.Nodup) :
    KInv c needed (needed.map (fun id => (id, inDeg0 c needed id)))
      (sortStrings (((needed.map (fun id => (id, inDeg0 c needed id))).filter
        (fun p => p.2 == 0)).map Prod.fst)) [] := by
  have hin : ∀ id, inDeg0 c needed id = ((unemittedDeg c needed [] id : Nat) : Int) := by
    intro id
    unfold inDeg0 unemittedDeg
    congr 1
    apply congrArg
    apply List.filter_congr
    intro d _
    simp [List.contains]
  have hkeys : (needed.map (fun id => (id, inDeg0 c needed id))).map Prod.fst = needed := by
    rw [List.map_map]
    exact List.map_id'' (fun a => rfl) needed
  unfold KInv
  refine ⟨hndN, ?_, ?_, ?_, List.nodup_nil, ?_, ?_, ?_⟩
  · exact List.map_congr_left (fun a _ => by rw [hin a])
  · apply sortStrings_nodup
    have hsub : List.Sublist
        (((needed.map (fun id => (id, inDeg0 c needed id))).filter
          (fun p => p.2 == 0)).map Prod.fst)
        ((needed.map (fun id => (id, inDeg0 c needed id))).map Prod.fst) :=
      (List.filter_sublist _).map Prod.fst
    rw [hkeys] at hsub
    exact hndN.sublist hsub
  · intro x
    rw [sortStrings_mem, List.mem_map]
    constructor
    · rintro ⟨p, hp, hpx⟩
      obtain ⟨hpm, hpz⟩ := List.mem_filter.mp hp
      obtain ⟨a, ha, hpa⟩ := List.mem_map.mp hpm
      rw [← hpa] at hpz hpx
      simp only at hpx hpz
      rw [← hpx]
      refine ⟨ha, fun h => absurd h (List.not_mem_nil a), ?_⟩
      rw [hin a] at hpz
      simpa using hpz
    · rintro ⟨hxN, _, hdeg⟩
      refine ⟨(x, inDeg0 c needed x), List.mem_filter.mpr ⟨?_, ?_⟩, rfl⟩
      · exact List.mem_map.mpr ⟨x, hxN, rfl⟩
      · rw [hin x, hdeg]
        rfl
  · intro x hx; cases hx
  · intro x hx; cases hx
  · intro i h
    simp at h

theorem indexOf_lt_of_mem_take {l : List String} {b : String} :
    ∀ {i : Nat}, b ∈ l.take i → l.indexOf b < i := by
  induction l with
  | nil => intro i hb; simp at hb
  | cons a rest ih =>
    intro i hb
    cases i with
    | zero => simp at hb
    | succ i =>
      rw [List.take_succ_cons] at hb
      rw [List.indexOf_cons]
      rcases List.mem_cons.mp hb with hb | hb
      · have hab : (a == b) = true := by simp [hb]
        rw [hab]
        exact Nat.succ_pos i
      · by_cases hab : (a == b) = true
        · rw [hab]
          exact Nat.succ_pos i
        · rw [Bool.not_eq_true] at hab
          rw [hab]
          show rest.indexOf b + 1 < i + 1
          exact Nat.succ_lt_succ (ih hb)

theorem indexOf_get_of_nodup :
    ∀ {l : List String}, l.Nodup → ∀ {i : Nat} (h : i < l.length),
    l.indexOf (l.get ⟨i, h⟩) = i := by
  intro l
  induction l with
  | nil => intro _ i h; simp at h
  | cons a rest ih =>
    intro hnd i h
    cases i with
    | zero =>
      show (a :: rest).indexOf a = 0
      rw [List.indexOf_cons]
      simp
    | succ i =>
      have hlt : i < rest.length := by simpa using h
      have hget : (a :: rest).get ⟨i + 1, h⟩ = rest.get ⟨i, hlt⟩ := rfl
      rw [hget, List.indexOf_cons]
      obtain ⟨hna, hndr⟩ := List.nodup_cons.mp hnd
      have hne : (a == rest.get ⟨i, hlt⟩) = false := by
        rw [beq_eq_false_iff_ne]
        intro hcontra
        apply hna
        rw [hcontra]
        exact List.get_mem rest i hlt
      rw [hne]
      show rest.indexOf (rest.get ⟨i, hlt⟩) + 1 = i + 1
      rw [ih hndr hlt]

theorem mem_iff_of_nodup_subset_length {l₁ l₂ : List String}
    (h₁ : l₁.Nodup) (h₂ : l₂.Nodup) (hsub : ∀ x ∈ l₁, x ∈ l₂)
    (hlen : l₁.length = l₂.length) : ∀ x, x ∈ l₁ ↔ x ∈ l₂ := by
  classical
  have hfs : l₁.toFinset = l₂.toFinset := by
    apply Finset.eq_of_subset_of_card_le
    · intro x hx
      rw [List.mem_toFinset] at hx ⊢
      exact hsub x hx
    · rw [List.toFinset_card_of_nodup h₁, List.toFinset_card_of_nodup h₂, hlen]
  intro x
  rw [← List.mem_toFinset, ← @List.mem_toFinset _ _ l₂ x, hfs]

/-- Claim C1: for every catalog and explicit sequence on which `Resolve`
succeeds, the returned `Order` contains exactly the ids of the explicit
set together with the transitive closure of their dependencies, each
exactly once, and for every dependency edge (`a` depends on `b`) with
both endpoints in `Order`, `b` precedes `a`. -/
theorem c1_resolve_order_topological (c : Catalog) (explicitIds : List String)
    (r : Resolution) (h : Resolve c explicitIds = .ok r) :
    (∀ x, x ∈ r.order ↔ Reachable c explicitIds x) ∧
    r.order.Nodup ∧
    (∀ a b, a ∈ r.order → b ∈ r.order → EdgeTo c a b →
      r.order.indexOf b < r.order.indexOf a) := by
  obtain ⟨hfind, needed, depOf, hbfs, horder, hexp, hdep, hlen⟩ := Resolve_ok_inv h
  obtain ⟨hiff, hndN, hsome, hclosed⟩ := bfs_top_props hbfs
  obtain ⟨m₂, q₂, hfinalInv⟩ := kahnLoop_props c needed _ _ _ _ (kinv_init c hndN)
  rw [← horder] at hfinalInv
  obtain ⟨_, _, _, _, hordnd, hordsub, _, htopo⟩ := hfinalInv
  have hmemN : ∀ x, x ∈ r.order ↔ x ∈ needed :=
    mem_iff_of_nodup_subset_length hordnd hndN hordsub hlen
  refine ⟨?_, hordnd, ?_⟩
  · intro x
    rw [hmemN x, hiff x]
  · intro a b ha hb hedge
    obtain ⟨⟨i, hi⟩, hget⟩ := List.mem_iff_get.mp ha
    have hbneed : needed.contains b = true := by
      have : b ∈ needed := (hmemN b).mp hb
      simp [this]
    have hdeps : b ∈ depsOf c (r.order.get ⟨i, hi⟩) := by
      rw [hget]
      obtain ⟨info, hfi, hbdeps⟩ := hedge
      unfold depsOf
      rw [hfi]
      exact hbdeps
    have htk : b ∈ r.order.take i := htopo i hi b hdeps hbneed
    have h1 : r.order.indexOf b < i := indexOf_lt_of_mem_take htk
    have h2 : r.order.indexOf a = i := by
      have := indexOf_get_of_nodup hordnd hi
      rw [hget] at this
      exact this
    omega

/-- Witness for C1 on the chain catalog `{php: [], laravel: [php]}`. -/
theorem c1_witness :
    (∀ x, x ∈ (["php", "laravel"] : List String) ↔
      Reachable [⟨"php", []⟩, ⟨"laravel", ["php"]⟩] ["laravel"] x) ∧
    (["php", "laravel"] : List String).Nodup ∧
    (∀ a b, a ∈ (["php", "laravel"] : List String) →
      b ∈ (["php", "laravel"] : List String) →
      EdgeTo [⟨"php", []⟩, ⟨"laravel", ["php"]⟩] a b →
      (["php", "laravel"] : List String).indexOf b <
        (["php", "laravel"] : List String).indexOf a) :=
  c1_resolve_order_topological [⟨"php", []⟩, ⟨"laravel", ["php"]⟩] ["laravel"]
    ⟨["php", "laravel"], ["laravel"], [("php", "laravel")]⟩ (by decide)

/-- Claim C5: every successful `Resolve` emits exactly the order of the
reference ready-queue algorithm that repeatedly emits the
lexicographically smallest zero-in-degree not-yet-emitted id of the
needed subgraph; hence two calls with the same catalog and explicit
list yield identical `Order`. -/
theorem c5_resolve_matches_reference (c : Catalog) (explicitIds : List String)
    (r : Resolution) (h : Resolve c explicitIds = .ok r) :
    (∃ needed depOf,
      bfsAux c explicitIds (resolveFuel c explicitIds) explicitIds [] [] =
        .ok (needed, depOf) ∧
      r.order = refRun c needed (needed.length + 1) []) ∧
    (∀ r₂ : Resolution, Resolve c explicitIds = .ok r₂ → r₂.order = r.order) := by
  obtain ⟨hfind, needed, depOf, hbfs, horder, hexp, hdep, hlen⟩ := Resolve_ok_inv h
  obtain ⟨hiff, hndN, _, _⟩ := bfs_top_props hbfs
  refine ⟨⟨needed, depOf, hbfs, ?_⟩, ?_⟩
  · rw [horder]
    exact kahnLoop_eq_refRun c needed (needed.length + 1) _ _ [] (kinv_init c hndN)
  · intro r₂ h₂
    rw [h] at h₂
    injection h₂ with h₂
    rw [h₂]

/-- Witness for C5 on the chain catalog. -/
theorem c5_witness :
    ∃ needed depOf,
      bfsAux [⟨"php", []⟩, ⟨"laravel", ["php"]⟩] ["laravel"]
        (resolveFuel [⟨"php", []⟩, ⟨"laravel", ["php"]⟩] ["laravel"])
        ["laravel"] [] [] = .ok (needed, depOf) ∧
      (["php", "laravel"] : List String) =
        refRun [⟨"php", []⟩, ⟨"laravel", ["php"]⟩] needed (needed.length + 1) [] :=
  (c5_resolve_matches_reference [⟨"php", []⟩, ⟨"laravel", ["php"]⟩] ["laravel"]
    ⟨["php", "laravel"], ["laravel"], [("php", "laravel")]⟩ (by decide)).1

/-! ## `findCycle`: shape and completeness of the reconstructed cycle -/

theorem getMark_setMark_self (m : List (String × Nat)) (k : String) (v : Nat) :
    getMark (setMark m k v) k = v := by
  induction m with
  | nil => simp [setMark, getMark]
  | cons p rest ih =>
    unfold setMark
    by_cases hp : p.1 == k
    · rw [if_pos hp]
      unfold getMark
      simp
    · rw [if_neg hp]
      unfold getMark
      simp only [List.find?_cons]
      rw [Bool.not_eq_true] at hp
      rw [hp]
      exact ih

theorem getMark_setMark_ne (m : List (String × Nat)) (k k' : String) (v : Nat)
    (h : k' ≠ k) : getMark (setMark m k v) k' = getMark m k' := by
  induction m with
  | nil => simp [setMark, getMark, Ne.symm h]
  | cons p rest ih =>
    unfold setMark
    by_cases hp : p.1 == k
    · rw [if_pos hp]
      have hpk : p.1 = k := by simpa using hp
      unfold getMark
      simp only [List.find?_cons]
      have h1 : (k == k') = false := by simp [Ne.symm h]
      have h2 : (p.1 == k') = false := by simp [hpk, Ne.symm h]
      rw [h1, h2]
    · rw [if_neg hp]
      unfold getMark
      simp only [List.find?_cons]
      by_cases hq : p.1 == k'
      · rw [hq]
      · rw [Bool.not_eq_true] at hq
        rw [hq]
        exact ih

theorem depsOf_le_totalDeps (c : Catalog) (n : String) :
    (depsOf c n).length ≤ totalDeps c := by
  unfold depsOf
  cases hf : findStack c n with
  | none => simp
  | some info =>
    simp only [Option.map_some', Option.getD_some]
    exact findStack_some_deps_le hf

theorem edgeTo_of_mem_depsOf {c : Catalog} {n d : String}
    (h : d ∈ depsOf c n) : EdgeTo c n d := by
  unfold depsOf at h
  cases hf : findStack c n with
  | none => rw [hf] at h; simp at h
  | some info =>
    rw [hf] at h
    simp only [Option.map_some', Option.getD_some] at h
    exact ⟨info, hf, h⟩

theorem filter_length_mono {l : List String} {p q : String → Bool}
    (himp : ∀ x ∈ l, q x = true → p x = true) :
    (l.filter q).length ≤ (l.filter p).length := by
  induction l with
  | nil => simp
  | cons a rest ih =>
    have ih' := ih (fun x hx => himp x (List.mem_cons_of_mem _ hx))
    by_cases hq : q a = true
    · rw [List.filter_cons_of_pos hq,
        List.filter_cons_of_pos (himp a (List.mem_cons_self _ _) hq)]
      simpa using ih'
    · rw [List.filter_cons_of_neg hq]
      by_cases hp : p a = true
      · rw [List.filter_cons_of_pos hp]
        simp only [List.length_cons]
        omega
      · rw [List.filter_cons_of_neg hp]
        exact ih'

theorem filter_length_lt {l : List String} {p q : String → Bool}
    (himp : ∀ x ∈ l, q x = true → p x = true) {a : String}
    (ha : a ∈ l) (hpa : p a = true) (hqa : q a = false) :
    (l.filter q).length < (l.filter p).length := by
  induction l with
  | nil => cases ha
  | cons b rest ih =>
    have hmono := filter_length_mono
      (fun x hx => himp x (List.mem_cons_of_mem _ hx))
    rcases List.mem_cons.mp ha with hab | ha'
    · rw [← hab, List.filter_cons_of_pos hpa, List.filter_cons_of_neg (by rw [hqa]; simp)]
      simp only [List.length_cons]
      omega
    · have ih' := ih (fun x hx => himp x (List.mem_cons_of_mem _ hx)) ha'
      by_cases hq : q b = true
      · rw [List.filter_cons_of_pos hq,
          List.filter_cons_of_pos (himp b (List.mem_cons_self _ _) hq)]
        simpa using ih'
      · rw [List.filter_cons_of_neg hq]
        by_cases hp : p b = true
        · rw [List.filter_cons_of_pos hp]
          simp only [List.length_cons]
          omega
        · rw [List.filter_cons_of_neg hp]
          exact ih'

/-- The body of `dfsStep` at an `inl` (node) step, as an equation. -/
theorem dfsStep_inl_def (c : Catalog) (needed : List String) (fuel : Nat)
    (node : String) (vis : List (String × Nat)) (p : List String) :
    dfsStep c needed (fuel + 1) (.inl node) vis p =
      (match dfsStep c needed fuel (.inr (depsOf c node)) (setMark vis node 1)
          (p ++ [node]) with
       | (.clean, v', p') => (.clean, setMark v' node 2, p'.dropLast)
       | r => r) := rfl

theorem dfsStep_inl_clean {c : Catalog} {needed : List String} {fuel : Nat}
    {node : String} {vis : List (String × Nat)} {p : List String}
    {v' : List (String × Nat)} {p' : List String}
    (h : dfsStep c needed fuel (.inr (depsOf c node)) (setMark vis node 1)
      (p ++ [node]) = (.clean, v', p')) :
    dfsStep c needed (fuel + 1) (.inl node) vis p =
      (.clean, setMark v' node 2, p'.dropLast) := by
  rw [dfsStep_inl_def, h]

theorem dfsStep_inl_cycle {c : Catalog} {needed : List String} {fuel : Nat}
    {node : String} {vis : List (String × Nat)} {p : List String}
    {l : List String} {v' : List (String × Nat)} {p' : List String}
    (h : dfsStep c needed fuel (.inr (depsOf c node)) (setMark vis node 1)
      (p ++ [node]) = (.cycle l, v', p')) :
    dfsStep c needed (fuel + 1) (.inl node) vis p = (.cycle l, v', p') := by
  rw [dfsStep_inl_def, h]

theorem dfsStep_inl_fuelOut {c : Catalog} {needed : List String} {fuel : Nat}
    {node : String} {vis : List (String × Nat)} {p : List String}
    {v' : List (String × Nat)} {p' : List String}
    (h : dfsStep c needed fuel (.inr (depsOf c node)) (setMark vis node 1)
      (p ++ [node]) = (.fuelOut, v', p')) :
    dfsStep c needed (fuel + 1) (.inl node) vis p = (.fuelOut, v', p') := by
  rw [dfsStep_inl_def, h]

/-- The body of `dfsStep` at an `inr` (dependency-scan) step. -/
theorem dfsStep_inr_cons_def (c : Catalog) (needed : List String) (fuel : Nat)
    (dep : String) (rest : List String) (vis : List (String × Nat)) (p : List String) :
    dfsStep c needed (fuel + 1) (.inr (dep :: rest)) vis p =
      (if needed.contains dep then
        if getMark vis dep == 1 then
          if p.contains dep then (.cycle (cycleFrom p dep), vis, p)
          else dfsStep c needed fuel (.inr rest) vis p
        else if getMark vis dep == 0 then
          match dfsStep c needed fuel (.inl dep) vis p with
          | (.clean, v', p') => dfsStep c needed fuel (.inr rest) v' p'
          | r => r
        else dfsStep c needed fuel (.inr rest) vis p
      else dfsStep c needed fuel (.inr rest) vis p) := rfl

theorem dfsStep_inr_rec_clean {c : Catalog} {needed : List String} {fuel : Nat}
    {dep : String} {rest : List String} {vis : List (String × Nat)} {p : List String}
    {v' : List (String × Nat)} {p' : List String}
    (hN : needed.contains dep = true) (h1 : getMark vis dep ≠ 1)
    (h0 : getMark vis dep = 0)
    (h : dfsStep c needed fuel (.inl dep) vis p = (.clean, v', p')) :
    dfsStep c needed (fuel + 1) (.inr (dep :: rest)) vis p =
      dfsStep c needed fuel (.inr rest) v' p' := by
  rw [dfsStep_inr_cons_def, if_pos hN, if_neg (by simpa using h1), if_pos (by simp [h0]), h]

theorem dfsStep_inr_rec_other {c : Catalog} {needed : List String} {fuel : Nat}
    {dep : String} {rest : List String} {vis : List (String × Nat)} {p : List String}
    {r : DfsRes} {v' : List (String × Nat)} {p' : List String}
    (hN : needed.contains dep = true) (h1 : getMark vis dep ≠ 1)
    (h0 : getMark vis dep = 0) (hr : r ≠ .clean)
    (h : dfsStep c needed fuel (.inl dep) vis p = (r, v', p')) :
    dfsStep c needed (fuel + 1) (.inr (dep :: rest)) vis p = (r, v', p') := by
  rw [dfsStep_inr_cons_def, if_pos hN, if_neg (by simpa using h1), if_pos (by simp [h0]), h]
  cases r with
  | clean => exact absurd rfl hr
  | cycle l => rfl
  | fuelOut => rfl

theorem fuel_arith_inr {D u u₂ r f : Nat} (hu : u₂ < u)
    (h : r + 1 + (D + 1) * u + 1 ≤ f + 1) : r + (D + 1) * u₂ + 1 ≤ f := by
  have h2 : (D + 1) * (u₂ + 1) ≤ (D + 1) * u :=
    Nat.mul_le_mul_left _ hu
  rw [Nat.mul_add, Nat.mul_one] at h2
  omega

theorem fuel_arith_inl {D u u₂ d f : Nat} (hu : u₂ < u) (hd : d ≤ D)
    (h : (D + 1) * u + 1 ≤ f + 1) : d + (D + 1) * u₂ + 1 ≤ f := by
  have h2 : (D + 1) * (u₂ + 1) ≤ (D + 1) * u :=
    Nat.mul_le_mul_left _ hu
  rw [Nat.mul_add, Nat.mul_one] at h2
  omega

theorem unvis_lt_of_mark {needed : List String} {vis vis' : List (String × Nat)}
    {a : String}
    (hmono : ∀ x, getMark vis' x = 0 → getMark vis x = 0)
    (ha : a ∈ needed) (h0 : getMark vis a = 0) (h0' : getMark vis' a ≠ 0) :
    unvisCount needed vis' < unvisCount needed vis := by
  unfold unvisCount
  refine filter_length_lt ?_ ha ?_ ?_
  · intro x _ hx
    simp only [beq_iff_eq] at hx ⊢
    exact hmono x hx
  · simp [h0]
  · simpa using h0' 

/-- Fuel sufficiency for `dfsStep`: with the stated fuel bounds the fuel
sentinel is never returned, marks never revert to 0, and an `inl` step
leaves its node marked. -/
theorem dfs_fuel_props (c : Catalog) (needed : List String) :
    ∀ (fuel : Nat) (work : String ⊕ List String) (vis : List (String × Nat))
      (p : List String),
    (∀ node, work = .inl node → getMark vis node = 0 ∧ node ∈ needed ∧
      (totalDeps c + 1) * unvisCount needed vis + 1 ≤ fuel) →
    (∀ deps, work = .inr deps → deps.length ≤ totalDeps c ∧
      deps.length + (totalDeps c + 1) * unvisCount needed vis + 1 ≤ fuel) →
    (dfsStep c needed fuel work vis p).1 ≠ .fuelOut ∧
    (∀ k, getMark vis k ≠ 0 →
      getMark (dfsStep c needed fuel work vis p).2.1 k ≠ 0) ∧
    (∀ node, work = .inl node →
      getMark (dfsStep c needed fuel work vis p).2.1 node ≠ 0) := by
  intro fuel
  induction fuel with
  | zero =>
    intro work vis p h1 h2
    cases work with
    | inl node => have := (h1 node rfl).2.2; omega
    | inr deps => have := (h2 deps rfl).2; omega
  | succ f ih =>
    intro work vis p h1 h2
    cases work with
    | inl node =>
      obtain ⟨h0, hmemN, hfuel⟩ := h1 node rfl
      have hlift : ∀ k, getMark vis k ≠ 0 → getMark (setMark vis node 1) k ≠ 0 := by
        intro k hk
        by_cases hkn : k = node
        · subst hkn; rw [getMark_setMark_self]; omega
        · rw [getMark_setMark_ne _ _ _ _ hkn]; exact hk
      have hu1 : unvisCount needed (setMark vis node 1) < unvisCount needed vis := by
        apply unvis_lt_of_mark _ hmemN h0
        · rw [getMark_setMark_self]; omega
        · intro x hx
          by_cases hxn : x = node
          · subst hxn; rw [getMark_setMark_self] at hx; omega
          · rw [getMark_setMark_ne _ _ _ _ hxn] at hx; exact hx
      have hsub := ih (.inr (depsOf c node)) (setMark vis node 1) (p ++ [node])
        (fun n h => by cases h)
        (fun deps h => by
          injection h with h
          subst h
          exact ⟨depsOf_le_totalDeps c node,
            fuel_arith_inl hu1 (depsOf_le_totalDeps c node) hfuel⟩)
      rcases hres : dfsStep c needed f (.inr (depsOf c node)) (setMark vis node 1)
          (p ++ [node]) with ⟨res₁, v₂, p₂⟩
      rw [hres] at hsub
      have hnf : res₁ ≠ .fuelOut := hsub.1
      have hmono : ∀ k, getMark (setMark vis node 1) k ≠ 0 → getMark v₂ k ≠ 0 :=
        hsub.2.1
      have hnode2 : getMark v₂ node ≠ 0 := by
        apply hmono
        rw [getMark_setMark_self]
        omega
      cases res₁ with
      | clean =>
        rw [dfsStep_inl_clean hres]
        refine ⟨(by intro hc; cases hc), ?_, ?_⟩
        · intro k hk
          show getMark (setMark v₂ node 2) k ≠ 0
          by_cases hkn : k = node
          · subst hkn; rw [getMark_setMark_self]; omega
          · rw [getMark_setMark_ne _ _ _ _ hkn]
            exact hmono k (hlift k hk)
        · intro n h
          injection h with h
          subst h
          show getMark (setMark v₂ node 2) node ≠ 0
          rw [getMark_setMark_self]
          omega
      | cycle l =>
        rw [dfsStep_inl_cycle hres]
        refine ⟨(by intro hc; cases hc), ?_, ?_⟩
        · intro k hk
          exact hmono k (hlift k hk)
        · intro n h
          injection h with h
          subst h
          exact hnode2
      | fuelOut => exact absurd rfl hnf
    | inr deps =>
      cases deps with
      | nil =>
        refine ⟨(by intro hc; cases hc), ?_, fun n h => by cases h⟩
        intro k hk
        exact hk
      | cons dep rest =>
        obtain ⟨hlen, hfuel⟩ := h2 (dep :: rest) rfl
        simp only [List.length_cons] at hlen hfuel
        have hrest_easy : (∀ n, (Sum.inr rest : String ⊕ List String) = .inl n →
            getMark vis n = 0 ∧ n ∈ needed ∧
            (totalDeps c + 1) * unvisCount needed vis + 1 ≤ f) :=
          fun n h => by cases h
        have hrest_b : rest.length ≤ totalDeps c := by omega
        have hrest_f : rest.length + (totalDeps c + 1) * unvisCount needed vis + 1 ≤ f := by
          omega
        by_cases hN : needed.contains dep = true
        · by_cases hm1 : getMark vis dep = 1
          · by_cases hp : p.contains dep = true
            · rw [dfsStep_inr_cons_def, if_pos hN, if_pos (by simp [hm1]), if_pos hp]
              exact ⟨(by intro hc; cases hc), fun k hk => hk, fun n h => by cases h⟩
            · rw [dfsStep_inr_cons_def, if_pos hN, if_pos (by simp [hm1]),
                if_neg (by simpa using hp)]
              have := ih (.inr rest) vis p hrest_easy
                (fun d h => by injection h with h; subst h; exact ⟨hrest_b, hrest_f⟩)
              exact ⟨this.1, this.2.1, fun n h => by cases h⟩
          · by_cases hm0 : getMark vis dep = 0
            · have hdepN : dep ∈ needed := by
                simpa [List.contains] using hN
              have hsub := ih (.inl dep) vis p
                (fun n h => by
                  injection h with h
                  subst h
                  refine ⟨hm0, hdepN, ?_⟩
                  omega)
                (fun d h => by cases h)
              rcases hres : dfsStep c needed f (.inl dep) vis p with ⟨res₁, v₂, p₂⟩
              rw [hres] at hsub
              have hnf : res₁ ≠ .fuelOut := hsub.1
              have hmono : ∀ k, getMark vis k ≠ 0 → getMark v₂ k ≠ 0 := hsub.2.1
              have hdep2 : getMark v₂ dep ≠ 0 := hsub.2.2 dep rfl
              cases res₁ with
              | clean =>
                rw [dfsStep_inr_rec_clean hN hm1 hm0 hres]
                have hu2 : unvisCount needed v₂ < unvisCount needed vis := by
                  apply unvis_lt_of_mark _ hdepN hm0 hdep2
                  intro x hx
                  by_contra hx0
                  exact hmono x hx0 hx
                have hrec := ih (.inr rest) v₂ p₂
                  (fun n h => by cases h)
                  (fun d h => by
                    injection h with h
                    subst h
                    exact ⟨hrest_b, fuel_arith_inr hu2 hfuel⟩)
                refine ⟨hrec.1, ?_, fun n h => by cases h⟩
                intro k hk
                exact hrec.2.1 k (hmono k hk)
              | cycle l =>
                rw [dfsStep_inr_rec_other hN hm1 hm0 (by intro h; cases h) hres]
                exact ⟨(by intro hc; cases hc), hmono, fun n h => by cases h⟩
              | fuelOut => exact absurd rfl hnf
            · rw [dfsStep_inr_cons_def, if_pos hN, if_neg (by simp [hm1]),
                if_neg (by simp [hm0])]
              have := ih (.inr rest) vis p hrest_easy
                (fun d h => by injection h with h; subst h; exact ⟨hrest_b, hrest_f⟩)
              exact ⟨this.1, this.2.1, fun n h => by cases h⟩
        · rw [dfsStep_inr_cons_def, if_neg hN]
          have := ih (.inr rest) vis p hrest_easy
            (fun d h => by injection h with h; subst h; exact ⟨hrest_b, hrest_f⟩)
          exact ⟨this.1, this.2.1, fun n h => by cases h⟩

theorem mem_depsOf_of_edgeTo {c : Catalog} {n d : String}
    (h : EdgeTo c n d) : d ∈ depsOf c n := by
  obtain ⟨info, hfi, hd⟩ := h
  unfold depsOf
  rw [hfi]
  exact hd

/-- Invariant preservation along a clean `dfsStep` run: the path is
restored, in-progress marks still are exactly the path, finished marks
are closed under needed edges and contain no needed cycle, finished
marks persist, and the processed node / scanned needed dependencies end
up finished. -/
theorem dfs_clean_props (c : Catalog) (needed : List String) :
    ∀ (fuel : Nat) (work : String ⊕ List String) (vis : List (String × Nat))
      (p : List String) (res : DfsRes) (vis' : List (String × Nat)) (p' : List String),
    dfsStep c needed fuel work vis p = (res, vis', p') →
    res = .clean →
    Mark1Path vis p → Marks012 vis → Marked2Closed c needed vis →
    MarkSafe c needed vis →
    (∀ node, work = .inl node → getMark vis node = 0 ∧ node ∈ needed) →
    (p' = p ∧ Mark1Path vis' p ∧ Marks012 vis' ∧ Marked2Closed c needed vis' ∧
      MarkSafe c needed vis' ∧
      (∀ k, getMark vis k = 2 → getMark vis' k = 2) ∧
      (∀ node, work = .inl node → getMark vis' node = 2) ∧
      (∀ deps, work = .inr deps → ∀ d ∈ deps, d ∈ needed → getMark vis' d = 2)) := by
  intro fuel
  induction fuel with
  | zero =>
    intro work vis p res vis' p' h hclean _ _ _ _ _
    cases work with
    | inl node =>
      have h0 : dfsStep c needed 0 (.inl node) vis p = (.fuelOut, vis, p) := rfl
      rw [h0] at h
      injection h with h1 _
      rw [← h1] at hclean
      cases hclean
    | inr deps =>
      have h0 : dfsStep c needed 0 (.inr deps) vis p = (.fuelOut, vis, p) := rfl
      rw [h0] at h
      injection h with h1 _
      rw [← h1] at hclean
      cases hclean
  | succ f ih =>
    intro work vis p res vis' p' h hclean hm1p hm012 hm2c hsafe hw
    cases work with
    | inl node =>
      obtain ⟨h0, hmemN⟩ := hw node rfl
      have hnodep : node ∉ p := by
        intro hin
        have := (hm1p node).mpr hin
        omega
      rcases hres : dfsStep c needed f (.inr (depsOf c node)) (setMark vis node 1)
          (p ++ [node]) with ⟨res₁, v₂, p₂⟩
      cases res₁ with
      | clean =>
        rw [dfsStep_inl_clean hres] at h
        injection h with h1 h23
        injection h23 with h2 h3
        have hm1p₁ : Mark1Path (setMark vis node 1) (p ++ [node]) := by
          intro k
          by_cases hkn : k = node
          · subst hkn
            rw [getMark_setMark_self]
            simp
          · rw [getMark_setMark_ne _ _ _ _ hkn]
            rw [hm1p k]
            simp [hkn]
        have hm012₁ : Marks012 (setMark vis node 1) := by
          intro k
          by_cases hkn : k = node
          · subst hkn; rw [getMark_setMark_self]; omega
          · rw [getMark_setMark_ne _ _ _ _ hkn]; exact hm012 k
        have hmkeq₁ : ∀ x, getMark (setMark vis node 1) x = 2 ↔ getMark vis x = 2 := by
          intro x
          by_cases hxn : x = node
          · subst hxn
            rw [getMark_setMark_self, h0]
            omega
          · rw [getMark_setMark_ne _ _ _ _ hxn]
        have hm2c₁ : Marked2Closed c needed (setMark vis node 1) := by
          intro w hw2 d hnd
          rw [hmkeq₁]
          exact hm2c w ((hmkeq₁ w).mp hw2) d hnd
        have hsafe₁ : MarkSafe c needed (setMark vis node 1) := by
          intro v htg
          apply hsafe v
          refine Relation.TransGen.mono ?_ htg
          intro a b hab
          exact ⟨hab.1, (hmkeq₁ a).mp hab.2.1, (hmkeq₁ b).mp hab.2.2⟩
        obtain ⟨hp₂, hm1p₂, hm012₂, hm2c₂, hsafe₂, hmono₂, _, hscan₂⟩ :=
          ih (.inr (depsOf c node)) (setMark vis node 1) (p ++ [node]) .clean v₂ p₂
            hres rfl hm1p₁ hm012₁ hm2c₁ hsafe₁ (fun n hn => by cases hn)
        have hnode1 : getMark v₂ node = 1 := by
          apply (hm1p₂ node).mpr
          simp
        have hscand : ∀ d, d ∈ depsOf c node → d ∈ needed → getMark v₂ d = 2 :=
          fun d hd hdn => hscan₂ (depsOf c node) rfl d hd hdn
        subst h2
        subst h3
        refine ⟨?_, ?_, ?_, ?_, ?_, ?_, ?_, fun deps hd => by cases hd⟩
        · rw [hp₂]
          simp
        · intro k
          by_cases hkn : k = node
          · subst hkn
            rw [getMark_setMark_self]
            constructor
            · intro hk; omega
            · intro hk; exact absurd hk hnodep
          · rw [getMark_setMark_ne _ _ _ _ hkn]
            rw [hm1p₂ k]
            simp [hkn]
        · intro k
          by_cases hkn : k = node
          · subst hkn; rw [getMark_setMark_self]
          · rw [getMark_setMark_ne _ _ _ _ hkn]; exact hm012₂ k
        · intro w hw2 d hnd
          by_cases hdn : d = node
          · subst hdn; rw [getMark_setMark_self]
          · rw [getMark_setMark_ne _ _ _ _ hdn]
            by_cases hwn : w = node
            · subst hwn
              exact hscand d (mem_depsOf_of_edgeTo hnd.1) hnd.2.2
            · rw [getMark_setMark_ne _ _ _ _ hwn] at hw2
              have := hm2c₂ w hw2 d hnd
              by_cases hdn2 : d = node
              · exact absurd hdn2 hdn
              · exact this
        · -- MarkSafe after finishing `node`
          have hnoedge : ∀ a, ¬ DoneEdge c needed (setMark v₂ node 2) a node := by
            intro a ⟨hne, ha2, _⟩
            by_cases han : a = node
            · rw [han] at hne
              have := hscand node (mem_depsOf_of_edgeTo hne.1) hne.2.2
              omega
            · rw [getMark_setMark_ne _ _ _ _ han] at ha2
              have := hm2c₂ a ha2 node hne
              omega
          have hnointo : ∀ a, ¬ Relation.TransGen
              (DoneEdge c needed (setMark v₂ node 2)) a node := by
            intro a htg
            cases htg with
            | single hr => exact hnoedge _ hr
            | tail _ hr => exact hnoedge _ hr
          have htrans : ∀ a b, Relation.TransGen
              (DoneEdge c needed (setMark v₂ node 2)) a b →
              a = node ∨ Relation.TransGen (DoneEdge c needed v₂) a b := by
            intro a b htg
            induction htg with
            | single hr =>
              rename_i b₁
              by_cases han : a = node
              · exact Or.inl han
              · right
                apply Relation.TransGen.single
                by_cases hbn : b₁ = node
                · exact absurd (hbn ▸ hr) (hnoedge a)
                · obtain ⟨hne, ha2, hb2⟩ := hr
                  rw [getMark_setMark_ne _ _ _ _ han] at ha2
                  rw [getMark_setMark_ne _ _ _ _ hbn] at hb2
                  exact ⟨hne, ha2, hb2⟩
            | tail htg' hr ihtg =>
              rename_i b' b''
              by_cases hbn : b' = node
              · subst hbn
                exact absurd htg' (hnointo a)
              · by_cases hbn2 : b'' = node
                · exact absurd (hbn2 ▸ hr) (hnoedge b')
                · rcases ihtg with hl | hr'
                  · exact Or.inl hl
                  · right
                    apply Relation.TransGen.tail hr'
                    obtain ⟨hne, ha2, hb2⟩ := hr
                    rw [getMark_setMark_ne _ _ _ _ hbn] at ha2
                    rw [getMark_setMark_ne _ _ _ _ hbn2] at hb2
                    exact ⟨hne, ha2, hb2⟩
          intro v htg
          rcases htrans v v htg with hv | htg₂
          · rw [hv] at htg
            exact hnointo node htg
          · exact hsafe₂ v htg₂
        · intro k hk2
          have hkn : k ≠ node := by
            intro hkq
            rw [hkq, h0] at hk2
            omega
          rw [getMark_setMark_ne _ _ _ _ hkn]
          apply hmono₂
          rw [getMark_setMark_ne _ _ _ _ hkn]
          exact hk2
        · intro n hn
          injection hn with hn
          subst hn
          rw [getMark_setMark_self]
      | cycle l =>
        rw [dfsStep_inl_cycle hres] at h
        injection h with h1 _
        rw [← h1] at hclean
        cases hclean
      | fuelOut =>
        rw [dfsStep_inl_fuelOut hres] at h
        injection h with h1 _
        rw [← h1] at hclean
        cases hclean
    | inr deps =>
      cases deps with
      | nil =>
        have h0 : dfsStep c needed (f + 1) (.inr []) vis p = (.clean, vis, p) := rfl
        rw [h0] at h
        injection h with h1 h23
        injection h23 with h2 h3
        subst h2; subst h3
        refine ⟨rfl, hm1p, hm012, hm2c, hsafe, fun k hk => hk,
          (by intro n hn; cases hn), ?_⟩
        intro deps hdeq x hx
        injection hdeq with hdeq
        rw [← hdeq] at hx
        cases hx
      | cons dep rest =>
        by_cases hN : needed.contains dep = true
        · by_cases hm1 : getMark vis dep = 1
          · have hdep_p : p.contains dep = true := by
              have := (hm1p dep).mp hm1
              simpa [List.contains] using this
            rw [dfsStep_inr_cons_def, if_pos hN, if_pos (by simp [hm1]),
              if_pos hdep_p] at h
            injection h with h1 _
            rw [← h1] at hclean
            cases hclean
          · by_cases hm0 : getMark vis dep = 0
            · have hdepN : dep ∈ needed := by simpa [List.contains] using hN
              rcases hres : dfsStep c needed f (.inl dep) vis p with ⟨res₁, v₂, p₂⟩
              cases res₁ with
              | clean =>
                rw [dfsStep_inr_rec_clean hN hm1 hm0 hres] at h
                obtain ⟨hp₂, hm1p₂, hm012₂, hm2c₂, hsafe₂, hmono₂, hdone₂, _⟩ :=
                  ih (.inl dep) vis p .clean v₂ p₂ hres rfl hm1p hm012 hm2c hsafe
                    (fun n hn => by injection hn with hn; subst hn; exact ⟨hm0, hdepN⟩)
                rw [hp₂] at h
                obtain ⟨hp', hm1p', hm012', hm2c', hsafe', hmono', _, hscan'⟩ :=
                  ih (.inr rest) v₂ p res vis' p' h hclean hm1p₂ hm012₂ hm2c₂ hsafe₂
                    (fun n hn => by cases hn)
                refine ⟨hp', hm1p', hm012', hm2c', hsafe',
                  fun k hk => hmono' k (hmono₂ k hk), (by intro n hn; cases hn), ?_⟩
                intro ds hdeq x hx hxn
                injection hdeq with hdeq
                rw [← hdeq] at hx
                rcases List.mem_cons.mp hx with hxd | hxr
                · subst hxd
                  exact hmono' _ (hdone₂ _ rfl)
                · exact hscan' rest rfl x hxr hxn
              | cycle l =>
                rw [dfsStep_inr_rec_other hN hm1 hm0 (by intro hq; cases hq) hres] at h
                injection h with h1 _
                rw [← h1] at hclean
                cases hclean
              | fuelOut =>
                rw [dfsStep_inr_rec_other hN hm1 hm0 (by intro hq; cases hq) hres] at h
                injection h with h1 _
                rw [← h1] at hclean
                cases hclean
            · have hdep2 : getMark vis dep = 2 := by
                have := hm012 dep
                omega
              rw [dfsStep_inr_cons_def, if_pos hN, if_neg (by simp [hm1]),
                if_neg (by simp [hm0])] at h
              obtain ⟨hp', hm1p', hm012', hm2c', hsafe', hmono', _, hscan'⟩ :=
                ih (.inr rest) vis p res vis' p' h hclean hm1p hm012 hm2c hsafe
                  (fun n hn => by cases hn)
              refine ⟨hp', hm1p', hm012', hm2c', hsafe', hmono',
                (by intro n hn; cases hn), ?_⟩
              intro ds hdeq x hx hxn
              injection hdeq with hdeq
              rw [← hdeq] at hx
              rcases List.mem_cons.mp hx with hxd | hxr
              · subst hxd
                exact hmono' _ hdep2
              · exact hscan' rest rfl x hxr hxn
        · rw [dfsStep_inr_cons_def, if_neg hN] at h
          obtain ⟨hp', hm1p', hm012', hm2c', hsafe', hmono', _, hscan'⟩ :=
            ih (.inr rest) vis p res vis' p' h hclean hm1p hm012 hm2c hsafe
              (fun n hn => by cases hn)
          refine ⟨hp', hm1p', hm012', hm2c', hsafe', hmono',
            (by intro n hn; cases hn), ?_⟩
          intro ds hdeq x hx hxn
          injection hdeq with hdeq
          rw [← hdeq] at hx
          rcases List.mem_cons.mp hx with hxd | hxr
          · have hdn : dep ∉ needed := by simpa [List.contains] using hN
            rw [hxd] at hxn
            exact absurd hxn hdn
          · exact hscan' rest rfl x hxr hxn

theorem dfs_clean_path (c : Catalog) (needed : List String) :
    ∀ (fuel : Nat) (work : String ⊕ List String) (vis : List (String × Nat))
      (p : List String) (res : DfsRes) (vis' : List (String × Nat)) (p' : List String),
    dfsStep c needed fuel work vis p = (res, vis', p') → res = .clean → p' = p := by
  intro fuel
  induction fuel with
  | zero =>
    intro work vis p res vis' p' h hclean
    cases work with
    | inl node =>
      have h0 : dfsStep c needed 0 (.inl node) vis p = (.fuelOut, vis, p) := rfl
      rw [h0] at h
      injection h with h1 _
      rw [← h1] at hclean
      cases hclean
    | inr deps =>
      have h0 : dfsStep c needed 0 (.inr deps) vis p = (.fuelOut, vis, p) := rfl
      rw [h0] at h
      injection h with h1 _
      rw [← h1] at hclean
      cases hclean
  | succ f ih =>
    intro work vis p res vis' p' h hclean
    cases work with
    | inl node =>
      rcases hres : dfsStep c needed f (.inr (depsOf c node)) (setMark vis node 1)
          (p ++ [node]) with ⟨res₁, v₂, p₂⟩
      cases res₁ with
      | clean =>
        rw [dfsStep_inl_clean hres] at h
        injection h with _ h23
        injection h23 with _ h3
        have hp₂ := ih _ _ _ _ _ _ hres rfl
        rw [← h3, hp₂]
        simp
      | cycle l =>
        rw [dfsStep_inl_cycle hres] at h
        injection h with h1 _
        rw [← h1] at hclean
        cases hclean
      | fuelOut =>
        rw [dfsStep_inl_fuelOut hres] at h
        injection h with h1 _
        rw [← h1] at hclean
        cases hclean
    | inr deps =>
      cases deps with
      | nil =>
        have h0 : dfsStep c needed (f + 1) (.inr []) vis p = (.clean, vis, p) := rfl
        rw [h0] at h
        injection h with _ h23
        injection h23 with _ h3
        exact h3.symm
      | cons dep rest =>
        by_cases hN : needed.contains dep = true
        · by_cases hm1 : getMark vis dep = 1
          · by_cases hp : p.contains dep = true
            · rw [dfsStep_inr_cons_def, if_pos hN, if_pos (by simp [hm1]),
                if_pos hp] at h
              injection h with h1 _
              rw [← h1] at hclean
              cases hclean
            · rw [dfsStep_inr_cons_def, if_pos hN, if_pos (by simp [hm1]),
                if_neg (by simpa using hp)] at h
              exact ih _ _ _ _ _ _ h hclean
          · by_cases hm0 : getMark vis dep = 0
            · rcases hres : dfsStep c needed f (.inl dep) vis p with ⟨res₁, v₂, p₂⟩
              cases res₁ with
              | clean =>
                rw [dfsStep_inr_rec_clean hN hm1 hm0 hres] at h
                have hp₂ := ih _ _ _ _ _ _ hres rfl
                rw [hp₂] at h
                exact ih _ _ _ _ _ _ h hclean
              | cycle l =>
                rw [dfsStep_inr_rec_other hN hm1 hm0 (by intro hq; cases hq) hres] at h
                injection h with h1 _
                rw [← h1] at hclean
                cases hclean
              | fuelOut =>
                rw [dfsStep_inr_rec_other hN hm1 hm0 (by intro hq; cases hq) hres] at h
                injection h with h1 _
                rw [← h1] at hclean
                cases hclean
            · rw [dfsStep_inr_cons_def, if_pos hN, if_neg (by simp [hm1]),
                if_neg (by simp [hm0])] at h
              exact ih _ _ _ _ _ _ h hclean
        · rw [dfsStep_inr_cons_def, if_neg hN] at h
          exact ih _ _ _ _ _ _ h hclean

theorem chain_concat_of_last {c : Catalog} {p : List String} {last d : String}
    (hc : List.Chain' (EdgeTo c) p) (hl : p.getLast? = some last)
    (he : EdgeTo c last d) : List.Chain' (EdgeTo c) (p ++ [d]) := by
  rw [List.chain'_append]
  refine ⟨hc, List.chain'_singleton d, ?_⟩
  intro a ha b hb
  rw [hl] at ha
  simp only [Option.mem_some_iff, List.head?_cons] at ha hb
  rw [← ha, ← hb]
  exact he

/-- Any cycle returned by `dfsStep` starts and ends at the repeated node
and follows dependency edges throughout. -/
theorem dfs_cycle_shape (c : Catalog) (needed : List String) :
    ∀ (fuel : Nat) (work : String ⊕ List String) (vis : List (String × Nat))
      (p : List String) (l : List String) (vis' : List (String × Nat))
      (p' : List String),
    dfsStep c needed fuel work vis p = (.cycle l, vis', p') →
    (∀ node, work = .inl node → List.Chain' (EdgeTo c) (p ++ [node])) →
    (∀ deps, work = .inr deps → List.Chain' (EdgeTo c) p ∧
      ∃ last, p.getLast? = some last ∧ ∀ d ∈ deps, d ∈ depsOf c last) →
    ∃ x, l.head? = some x ∧ l.getLast? = some x ∧ List.Chain' (EdgeTo c) l := by
  intro fuel
  induction fuel with
  | zero =>
    intro work vis p l vis' p' h _ _
    cases work with
    | inl node =>
      have h0 : dfsStep c needed 0 (.inl node) vis p = (.fuelOut, vis, p) := rfl
      rw [h0] at h
      injection h with h1 _
      cases h1
    | inr deps =>
      have h0 : dfsStep c needed 0 (.inr deps) vis p = (.fuelOut, vis, p) := rfl
      rw [h0] at h
      injection h with h1 _
      cases h1
  | succ f ih =>
    intro work vis p l vis' p' h hwl hwr
    cases work with
    | inl node =>
      rcases hres : dfsStep c needed f (.inr (depsOf c node)) (setMark vis node 1)
          (p ++ [node]) with ⟨res₁, v₂, p₂⟩
      cases res₁ with
      | clean =>
        rw [dfsStep_inl_clean hres] at h
        injection h with h1 _
        cases h1
      | cycle l₂ =>
        rw [dfsStep_inl_cycle hres] at h
        injection h with h1 h23
        injection h1 with h1
        subst h1
        apply ih _ _ _ _ _ _ hres (fun n hn => by cases hn)
        intro deps hdeq
        injection hdeq with hdeq
        subst hdeq
        exact ⟨hwl node rfl, node, List.getLast?_concat p, fun d hd => hd⟩
      | fuelOut =>
        rw [dfsStep_inl_fuelOut hres] at h
        injection h with h1 _
        cases h1
    | inr deps =>
      cases deps with
      | nil =>
        have h0 : dfsStep c needed (f + 1) (.inr []) vis p = (.clean, vis, p) := rfl
        rw [h0] at h
        injection h with h1 _
        cases h1
      | cons dep rest =>
        obtain ⟨hchain, last, hlast, hdeps⟩ := hwr (dep :: rest) rfl
        have hrest : (∀ ds, (Sum.inr rest : String ⊕ List String) = .inr ds →
            List.Chain' (EdgeTo c) p ∧
            ∃ la, p.getLast? = some la ∧ ∀ d ∈ ds, d ∈ depsOf c la) := by
          intro ds hdeq
          injection hdeq with hdeq
          subst hdeq
          exact ⟨hchain, last, hlast, fun d hd => hdeps d (List.mem_cons_of_mem _ hd)⟩
        by_cases hN : needed.contains dep = true
        · by_cases hm1 : getMark vis dep = 1
          · by_cases hp : p.contains dep = true
            · rw [dfsStep_inr_cons_def, if_pos hN, if_pos (by simp [hm1]),
                if_pos hp] at h
              injection h with h1 _
              injection h1 with h1
              subst h1
              -- the returned cycle is `p.drop (p.indexOf dep) ++ [dep]`
              have hdepmem : dep ∈ p := by simpa [List.contains] using hp
              have hi : p.indexOf dep < p.length := List.indexOf_lt_length.mpr hdepmem
              have hget : p[p.indexOf dep] = dep := by
                have := List.indexOf_get hi
                rw [List.get_eq_getElem] at this
                exact this
              have hdropeq : p.drop (p.indexOf dep) =
                  dep :: p.drop (p.indexOf dep + 1) := by
                rw [List.drop_eq_getElem_cons hi, hget]
              have hdropne : p.drop (p.indexOf dep) ≠ [] := by
                rw [hdropeq]
                intro hq
                cases hq
              have hlastdrop : (p.drop (p.indexOf dep)).getLast? = some last := by
                have hsplit := List.take_append_drop (p.indexOf dep) p
                have := List.getLast?_append_of_ne_nil
                  (p.take (p.indexOf dep)) hdropne
                rw [hsplit] at this
                rw [← this, hlast]
              refine ⟨dep, ?_, ?_, ?_⟩
              · unfold cycleFrom
                rw [hdropeq, List.cons_append]
                rfl
              · exact List.getLast?_concat _
              · unfold cycleFrom
                apply chain_concat_of_last _ hlastdrop
                  (edgeTo_of_mem_depsOf (hdeps dep (List.mem_cons_self _ _)))
                exact List.Chain'.suffix hchain (List.drop_suffix _ _)
            · rw [dfsStep_inr_cons_def, if_pos hN, if_pos (by simp [hm1]),
                if_neg (by simpa using hp)] at h
              exact ih _ _ _ _ _ _ h (fun n hn => by cases hn) hrest
          · by_cases hm0 : getMark vis dep = 0
            · rcases hres : dfsStep c needed f (.inl dep) vis p with ⟨res₁, v₂, p₂⟩
              cases res₁ with
              | clean =>
                rw [dfsStep_inr_rec_clean hN hm1 hm0 hres] at h
                have hp₂ := dfs_clean_path c needed f _ _ _ _ _ _ hres rfl
                rw [hp₂] at h
                exact ih _ _ _ _ _ _ h (fun n hn => by cases hn) hrest
              | cycle l₂ =>
                rw [dfsStep_inr_rec_other hN hm1 hm0 (by intro hq; cases hq) hres] at h
                injection h with h1 _
                injection h1 with h1
                subst h1
                apply ih _ _ _ _ _ _ hres _ (fun ds hds => by cases hds)
                intro n hn
                injection hn with hn
                subst hn
                exact chain_concat_of_last hchain hlast
                  (edgeTo_of_mem_depsOf (hdeps dep (List.mem_cons_self _ _)))
              | fuelOut =>
                rw [dfsStep_inr_rec_other hN hm1 hm0 (by intro hq; cases hq) hres] at h
                injection h with h1 _
                cases h1
            · rw [dfsStep_inr_cons_def, if_pos hN, if_neg (by simp [hm1]),
                if_neg (by simp [hm0])] at h
              exact ih _ _ _ _ _ _ h (fun n hn => by cases hn) hrest
        · rw [dfsStep_inr_cons_def, if_neg hN] at h
          exact ih _ _ _ _ _ _ h (fun n hn => by cases hn) hrest

theorem findCycleLoop_cons_def (c : Catalog) (needed : List String) (id : String)
    (rest : List String) (vis : List (String × Nat)) :
    findCycleLoop c needed (id :: rest) vis =
      (if getMark vis id == 0 then
        match dfsStep c needed (dfsFuel c needed) (.inl id) vis [] with
        | (.cycle l, _, _) => l
        | (_, v', _) => findCycleLoop c needed rest v'
      else findCycleLoop c needed rest vis) := rfl

theorem findCycleLoop_skip {c : Catalog} {needed : List String} {id : String}
    {rest : List String} {vis : List (String × Nat)}
    (h : getMark vis id ≠ 0) :
    findCycleLoop c needed (id :: rest) vis = findCycleLoop c needed rest vis := by
  rw [findCycleLoop_cons_def, if_neg (by simpa using h)]

theorem findCycleLoop_cycle {c : Catalog} {needed : List String} {id : String}
    {rest : List String} {vis : List (String × Nat)} {l : List String}
    {v' : List (String × Nat)} {p' : List String}
    (h0 : getMark vis id = 0)
    (h : dfsStep c needed (dfsFuel c needed) (.inl id) vis [] = (.cycle l, v', p')) :
    findCycleLoop c needed (id :: rest) vis = l := by
  rw [findCycleLoop_cons_def, if_pos (by simp [h0]), h]

theorem findCycleLoop_clean {c : Catalog} {needed : List String} {id : String}
    {rest : List String} {vis : List (String × Nat)}
    {v' : List (String × Nat)} {p' : List String}
    (h0 : getMark vis id = 0)
    (h : dfsStep c needed (dfsFuel c needed) (.inl id) vis [] = (.clean, v', p')) :
    findCycleLoop c needed (id :: rest) vis = findCycleLoop c needed rest v' := by
  rw [findCycleLoop_cons_def, if_pos (by simp [h0]), h]

theorem findCycleLoop_fuelOut {c : Catalog} {needed : List String} {id : String}
    {rest : List String} {vis : List (String × Nat)}
    {v' : List (String × Nat)} {p' : List String}
    (h0 : getMark vis id = 0)
    (h : dfsStep c needed (dfsFuel c needed) (.inl id) vis [] = (.fuelOut, v', p')) :
    findCycleLoop c needed (id :: rest) vis = findCycleLoop c needed rest v' := by
  rw [findCycleLoop_cons_def, if_pos (by simp [h0]), h]

/-- If the top loop of `findCycle` returns no cycle, all needed ids end
up finished, and no needed cycle lies among finished nodes. -/
theorem findCycleLoop_clean_props (c : Catalog) (needed : List String) :
    ∀ (ids : List String) (vis : List (String × Nat)),
    Mark1Path vis [] → Marks012 vis → Marked2Closed c needed vis →
    MarkSafe c needed vis →
    (∀ x ∈ needed, x ∈ ids ∨ getMark vis x = 2) →
    (∀ x ∈ ids, x ∈ needed) →
    findCycleLoop c needed ids vis = [] →
    ∃ visF, (∀ x ∈ needed, getMark visF x = 2) ∧ MarkSafe c needed visF := by
  intro ids
  induction ids with
  | nil =>
    intro vis _ _ _ hsafe hcov _ _
    refine ⟨vis, ?_, hsafe⟩
    intro x hx
    rcases hcov x hx with hq | hq
    · cases hq
    · exact hq
  | cons id rest ih =>
    intro vis hm1p hm012 hm2c hsafe hcov hsub hres
    by_cases h0 : getMark vis id = 0
    · have hbound : (totalDeps c + 1) * unvisCount needed vis + 1 ≤
          dfsFuel c needed := by
        have hle : unvisCount needed vis ≤ needed.length :=
          List.length_filter_le _ _
        have := Nat.mul_le_mul_left (totalDeps c + 1) hle
        unfold dfsFuel
        omega
      have hfuel := dfs_fuel_props c needed (dfsFuel c needed) (.inl id) vis []
        (fun n hn => by
          injection hn with hn
          subst hn
          exact ⟨h0, hsub id (List.mem_cons_self _ _), hbound⟩)
        (fun ds hds => by cases hds)
      rcases hdfs : dfsStep c needed (dfsFuel c needed) (.inl id) vis []
        with ⟨res₁, v₂, p₂⟩
      rw [hdfs] at hfuel
      cases res₁ with
      | fuelOut => exact absurd rfl hfuel.1
      | cycle l =>
        rw [findCycleLoop_cycle h0 hdfs] at hres
        subst hres
        obtain ⟨x, hx, _, _⟩ := dfs_cycle_shape c needed _ _ _ _ _ _ _ hdfs
          (fun n hn => by simp)
          (fun ds hds => by cases hds)
        cases hx
      | clean =>
        obtain ⟨_, hm1p', hm012', hm2c', hsafe', hmono', hdone', _⟩ :=
          dfs_clean_props c needed _ _ _ _ _ _ _ hdfs rfl hm1p hm012 hm2c hsafe
            (fun n hn => by
              injection hn with hn
              subst hn
              exact ⟨h0, hsub id (List.mem_cons_self _ _)⟩)
        rw [findCycleLoop_clean h0 hdfs] at hres
        apply ih v₂ hm1p' hm012' hm2c' hsafe' _ _ hres
        · intro x hx
          rcases hcov x hx with hq | hq
          · rcases List.mem_cons.mp hq with hq | hq
            · right
              rw [hq]
              exact hdone' id rfl
            · exact Or.inl hq
          · exact Or.inr (hmono' x hq)
        · intro x hx
          exact hsub x (List.mem_cons_of_mem _ hx)
    · rw [findCycleLoop_skip h0] at hres
      apply ih vis hm1p hm012 hm2c hsafe _ _ hres
      · intro x hx
        rcases hcov x hx with hq | hq
        · rcases List.mem_cons.mp hq with hq | hq
          · right
            rw [hq]
            have hn1 : getMark vis id ≠ 1 := by
              intro h1
              have := (hm1p id).mp h1
              cases this
            have := hm012 id
            omega
          · exact Or.inl hq
        · exact Or.inr hq
      · intro x hx
        exact hsub x (List.mem_cons_of_mem _ hx)

/-- Any nonempty result of the top loop of `findCycle` has the returned
cycle's shape. -/
theorem findCycleLoop_shape (c : Catalog) (needed : List String) :
    ∀ (ids : List String) (vis : List (String × Nat)) (l : List String),
    findCycleLoop c needed ids vis = l → l ≠ [] →
    ∃ x, l.head? = some x ∧ l.getLast? = some x ∧ List.Chain' (EdgeTo c) l := by
  intro ids
  induction ids with
  | nil =>
    intro vis l h hne
    rw [← h] at hne
    exact absurd rfl hne
  | cons id rest ih =>
    intro vis l h hne
    by_cases h0 : getMark vis id = 0
    · rcases hdfs : dfsStep c needed (dfsFuel c needed) (.inl id) vis []
        with ⟨res₁, v₂, p₂⟩
      cases res₁ with
      | fuelOut =>
        rw [findCycleLoop_fuelOut h0 hdfs] at h
        exact ih v₂ l h hne
      | clean =>
        rw [findCycleLoop_clean h0 hdfs] at h
        exact ih v₂ l h hne
      | cycle l₂ =>
        rw [findCycleLoop_cycle h0 hdfs] at h
        subst h
        exact dfs_cycle_shape c needed _ _ _ _ _ _ _ hdfs
          (fun n hn => by simp)
          (fun ds hds => by cases hds)
    · rw [findCycleLoop_skip h0] at h
      exact ih vis l h hne

/-- Under a needed-subgraph cycle, `findCycle` returns a nonempty walk
along dependency edges that starts and ends at the same node. -/
theorem findCycle_of_cycle (c : Catalog) (needed : List String)
    (hcyc : ∃ v, Relation.TransGen (NeedEdge c needed) v v) :
    ∃ x, (findCycle c needed).head? = some x ∧
      (findCycle c needed).getLast? = some x ∧
      List.Chain' (EdgeTo c) (findCycle c needed) := by
  have hne : findCycle c needed ≠ [] := by
    intro h0
    unfold findCycle at h0
    obtain ⟨visF, hall2, hsafe⟩ :=
      findCycleLoop_clean_props c needed (sortStrings needed) []
        (fun k => by simp [getMark])
        (fun k => by simp [getMark])
        (fun w hw => by simp [getMark] at hw)
        (fun v htg => by
          cases htg with
          | single hr =>
            have h2 : getMark [] v = 2 := hr.2.1
            simp [getMark] at h2
          | tail _ hr =>
            have h2 : getMark [] v = 2 := hr.2.2
            simp [getMark] at h2)
        (fun x hx => Or.inl (sortStrings_mem.mpr hx))
        (fun x hx => sortStrings_mem.mp hx)
        h0
    obtain ⟨v, htg⟩ := hcyc
    apply hsafe v
    refine Relation.TransGen.mono ?_ htg
    intro a b hab
    exact ⟨hab, hall2 a hab.2.1, hall2 b hab.2.2⟩
  exact findCycleLoop_shape c needed (sortStrings needed) [] _ rfl hne

theorem topoInv_indexOf {c : Catalog} {needed order : List String}
    (hordnd : order.Nodup) (htopo : TopoInv c needed order) :
    ∀ a b, a ∈ order → EdgeTo c a b → b ∈ needed →
      order.indexOf b < order.indexOf a := by
  intro a b ha hedge hbneed
  obtain ⟨⟨i, hi⟩, hget⟩ := List.mem_iff_get.mp ha
  have hbc : needed.contains b = true := by simp [hbneed]
  have hdeps : b ∈ depsOf c (order.get ⟨i, hi⟩) := by
    rw [hget]
    exact mem_depsOf_of_edgeTo hedge
  have htk := htopo i hi b hdeps hbc
  have h1 : order.indexOf b < i := indexOf_lt_of_mem_take htk
  have h2 : order.indexOf a = i := by
    have := indexOf_get_of_nodup hordnd hi
    rw [hget] at this
    exact this
  omega

/-- A topologically sorted duplicate-free cover of `needed` excludes any
cycle of the needed subgraph. -/
theorem kinv_no_cycle {c : Catalog} {needed order : List String}
    (hndN : needed.Nodup) (hordnd : order.Nodup)
    (hordsub : ∀ x ∈ order, x ∈ needed) (htopo : TopoInv c needed order)
    (hlen : order.length = needed.length)
    (hcycN : ∃ v, Relation.TransGen (NeedEdge c needed) v v) : False := by
  have hmem := mem_iff_of_nodup_subset_length hordnd hndN hordsub hlen
  have hdesc : ∀ a b, Relation.TransGen (NeedEdge c needed) a b →
      order.indexOf b < order.indexOf a := by
    intro a b htg
    induction htg with
    | single hr =>
      exact topoInv_indexOf hordnd htopo _ _ ((hmem _).mpr hr.2.1) hr.1 hr.2.2
    | tail htg' hr ihtg =>
      have hstep := topoInv_indexOf hordnd htopo _ _ ((hmem _).mpr hr.2.1) hr.1 hr.2.2
      omega
  obtain ⟨v, htg⟩ := hcycN
  have := hdesc v v htg
  omega

/-- Claim C4: for every catalog and explicit set whose needed subgraph
contains a cycle (all explicit ids and all reachable ids being present
in the catalog), `Resolve` fails with `CircularDependency` carrying the
cycle that `findCycle` reconstructs by depth-first search over the
lexicographically sorted needed ids; the returned sequence is nonempty,
follows dependency edges throughout, and has the repeated node as both
its first and its last element. -/
theorem c4_circular_dependency (c : Catalog) (explicitIds : List String)
    (hall : ∀ id ∈ explicitIds, (findStack c id).isSome)
    (hclosed : ∀ x, Reachable c explicitIds x → (findStack c x).isSome)
    (hcyc : ∃ v, Relation.TransGen
      (fun a b => EdgeTo c a b ∧ Reachable c explicitIds a ∧
        Reachable c explicitIds b) v v) :
    ∃ needed depOf cyc x,
      bfsAux c explicitIds (resolveFuel c explicitIds) explicitIds [] [] =
        .ok (needed, depOf) ∧
      cyc = findCycle c needed ∧
      Resolve c explicitIds = .error (.circularDependency cyc) ∧
      cyc ≠ [] ∧ cyc.head? = some x ∧ cyc.getLast? = some x ∧
      List.Chain' (EdgeTo c) cyc := by
  have hfind : explicitIds.find? (fun id => (findStack c id).isNone) = none := by
    rw [List.find?_eq_none]
    intro x hx
    have := hall x hx
    simp [Option.isNone_iff_eq_none]
    rw [Option.isSome_iff_exists] at this
    obtain ⟨v, hv⟩ := this
    rw [hv]
    intro hcontra
    cases hcontra
  cases hbfs : bfsAux c explicitIds (resolveFuel c explicitIds) explicitIds [] [] with
  | error e =>
    exfalso
    have herr := bfsAux_err c explicitIds (resolveFuel c explicitIds) explicitIds [] [] e
      hbfs hall (fun q hq => Reachable.root hq)
    rcases herr with herr | ⟨s', d', he, hr', hE', hn'⟩
    · refine bfsAux_no_fuelOut c explicitIds (resolveFuel c explicitIds) explicitIds [] []
        List.nodup_nil (fun n hn => absurd hn (List.not_mem_nil n)) ?_ ?_
      · unfold resolveFuel
        simp only [List.length_nil, Nat.sub_zero]
        omega
      · rw [hbfs, herr]
    · have hdreach : Reachable c explicitIds d' := Reachable.step hr' hE'
      have := hclosed d' hdreach
      rw [hn'] at this
      cases this
  | ok pr =>
    obtain ⟨needed, depOf⟩ := pr
    obtain ⟨hiff, hndN, hsome, hcl⟩ := bfs_top_props hbfs
    have hcycN : ∃ v, Relation.TransGen (NeedEdge c needed) v v := by
      obtain ⟨v, htg⟩ := hcyc
      refine ⟨v, Relation.TransGen.mono ?_ htg⟩
      intro a b hab
      exact ⟨hab.1, (hiff a).mpr hab.2.1, (hiff b).mpr hab.2.2⟩
    have hlen : ((kahnLoop c needed (needed.length + 1)
        (needed.map (fun id => (id, inDeg0 c needed id)))
        (sortStrings (((needed.map (fun id => (id, inDeg0 c needed id))).filter
          (fun p => p.2 == 0)).map Prod.fst)) []).length == needed.length) ≠ true := by
      intro hq
      obtain ⟨m₂, q₂, hinv⟩ :=
        kahnLoop_props c needed (needed.length + 1) _ _ [] (kinv_init c hndN)
      obtain ⟨_, _, _, _, hordnd, hordsub, _, htopo⟩ := hinv
      exact kinv_no_cycle hndN hordnd hordsub htopo (by simpa using hq) hcycN
    have hres : Resolve c explicitIds =
        .error (.circularDependency (findCycle c needed)) := by
      unfold Resolve
      rw [hfind]
      simp only
      rw [hbfs]
      simp only
      rw [if_neg hlen]
    obtain ⟨x, hhead, hlast, hchain⟩ := findCycle_of_cycle c needed hcycN
    refine ⟨needed, depOf, findCycle c needed, x, rfl, rfl, hres, ?_, hhead, hlast, hchain⟩
    intro hnil
    rw [hnil] at hhead
    cases hhead

/-- Witness for C4 on the cyclic catalog `{a: [b], b: [c], c: [a]}`. -/
theorem c4_witness :
    ∃ needed depOf cyc x,
      bfsAux [⟨"a", ["b"]⟩, ⟨"b", ["c"]⟩, ⟨"c", ["a"]⟩] ["a"]
        (resolveFuel [⟨"a", ["b"]⟩, ⟨"b", ["c"]⟩, ⟨"c", ["a"]⟩] ["a"])
        ["a"] [] [] = .ok (needed, depOf) ∧
      cyc = findCycle [⟨"a", ["b"]⟩, ⟨"b", ["c"]⟩, ⟨"c", ["a"]⟩] needed ∧
      Resolve [⟨"a", ["b"]⟩, ⟨"b", ["c"]⟩, ⟨"c", ["a"]⟩] ["a"] =
        .error (.circularDependency cyc) ∧
      cyc ≠ [] ∧ cyc.head? = some x ∧ cyc.getLast? = some x ∧
      List.Chain' (EdgeTo [⟨"a", ["b"]⟩, ⟨"b", ["c"]⟩, ⟨"c", ["a"]⟩]) cyc := by
  apply c4_circular_dependency
  · decide
  · intro x hx
    induction hx with
    | root h =>
      rename_i y
      have hxa : y = "a" := by simpa using h
      rw [hxa]
      decide
    | step hr he ih =>
      rename_i a d
      obtain ⟨info, hfi, hd⟩ := he
      have hmem := List.mem_of_find?_eq_some hfi
      simp only [List.mem_cons, List.not_mem_nil, or_false] at hmem
      rcases hmem with h1 | h1 | h1 <;> rw [h1] at hd <;> simp at hd <;>
        rw [hd] <;> decide
  · have rA : Reachable [⟨"a", ["b"]⟩, ⟨"b", ["c"]⟩, ⟨"c", ["a"]⟩] ["a"] "a" :=
      Reachable.root (by simp)
    have eAB : EdgeTo [⟨"a", ["b"]⟩, ⟨"b", ["c"]⟩, ⟨"c", ["a"]⟩] "a" "b" :=
      ⟨⟨"a", ["b"]⟩, by decide, by decide⟩
    have rB := Reachable.step rA eAB
    have eBC : EdgeTo [⟨"a", ["b"]⟩, ⟨"b", ["c"]⟩, ⟨"c", ["a"]⟩] "b" "c" :=
      ⟨⟨"b", ["c"]⟩, by decide, by decide⟩
    have rC := Reachable.step rB eBC
    have eCA : EdgeTo [⟨"a", ["b"]⟩, ⟨"b", ["c"]⟩, ⟨"c", ["a"]⟩] "c" "a" :=
      ⟨⟨"c", ["a"]⟩, by decide, by decide⟩
    exact ⟨"a", Relation.TransGen.tail
      (Relation.TransGen.tail (Relation.TransGen.single ⟨eAB, rA, rB⟩)
        ⟨eBC, rB, rC⟩) ⟨eCA, rC, rA⟩⟩
